import Mathlib

/-!
Verification of the dependency-graph core of pipdeptree against its
natural-language specification.

The development shallowly embeds the relevant Python code:

* `UtilPy` models `src/pipdeptree/_util.py` (PEP 503 key normalization with
  lower-casing).
* `PackagePy` models `src/pipdeptree/_models/package.py` (the package wrapper
  classes `DistPackage` and `ReqPackage` over importlib metadata, requirement
  filtering and deduplication, installed-version resolution and the
  version-conflict check).
* `ModelsPy` models `src/pipdeptree/_models.py` (the `PackageDAG` /
  `ReversedPackageDAG` graph: construction, filtering, reversal, sorting).
* `ValidatePy` models `src/pipdeptree/_validate.py` (cycle detection).

External collaborators are embedded as data or oracle parameters:
parsed requirement records stand in for `packaging.requirements.Requirement`
objects, an `Env` structure stands in for `importlib.metadata` /
`import_module` lookups, and a `specContains` oracle stands in for the
PEP 440 membership test `version in SpecifierSet(spec)`.
-/

/-- Stable insertion (model of one step of CPython's stable `sorted`):
`x` is placed before the first element `y` with `lt x y = true`, hence after
any run of elements equal to it. -/
def insortBy {α : Type} (lt : α → α → Bool) (x : α) : List α → List α
  | [] => [x]
  | y :: ys => if lt x y then x :: y :: ys else y :: insortBy lt x ys

/-- Stable sort by the strict comparison `lt` (model of Python `sorted`,
which is a stable sort driven by `__lt__`). -/
def sortBy {α : Type} (lt : α → α → Bool) (l : List α) : List α :=
  l.foldl (fun acc x => insortBy lt x acc) []

/-- Python `sep.join(l)`: the elements of `l` joined with `sep` in between. -/
def strJoin (sep : String) : List String → String
  | [] => ""
  | a :: as => as.foldl (fun acc x => acc ++ sep ++ x) a

/-- The characters collapsed by the normalization regex `[-_.]+`. -/
def isSepChar (c : Char) : Bool := c == '-' || c == '_' || c == '.'

/-- One pass of `re.sub("[-_.]+", "-", s)` over the character list: every
maximal run of `-`, `_`, `.` is replaced by a single `-`.  The flag records
whether the previous character belonged to such a run. -/
def subSepsAux : Bool → List Char → List Char
  | _, [] => []
  | prevSep, c :: cs =>
    if isSepChar c then
      if prevSep then subSepsAux true cs else '-' :: subSepsAux true cs
    else c :: subSepsAux false cs

/-- `re.sub("[-_.]+", "-", s)` on a character list. -/
def subSeps (l : List Char) : List Char := subSepsAux false l

/-- Python `str.lower()` restricted to ASCII (package names and filter
patterns are ASCII; `Char.toLower` is exactly ASCII lower-casing). -/
def lowerStr (s : String) : String := String.mk (s.data.map Char.toLower)

/-- Glob matching as used by `fnmatch.fnmatch` on the patterns the graph code
passes it: `*` matches any sequence, `?` any single character, any other
character matches itself; the whole string must be consumed.  The fuel is
only there to make the recursion structural: every recursive call strictly
decreases the combined length of pattern and string, so with the fuel chosen
by `gmatch` the out-of-fuel branch is unreachable. -/
def gmatchF : Nat → List Char → List Char → Bool
  | 0, _, _ => false
  | _ + 1, [], [] => true
  | _ + 1, [], _ :: _ => false
  | fuel + 1, '*' :: ps, [] => gmatchF fuel ps []
  | fuel + 1, '*' :: ps, c :: cs => gmatchF fuel ps (c :: cs) || gmatchF fuel ('*' :: ps) cs
  | _ + 1, '?' :: _, [] => false
  | fuel + 1, '?' :: ps, _ :: cs => gmatchF fuel ps cs
  | _ + 1, _ :: _, [] => false
  | fuel + 1, p :: ps, c :: cs => (p == c) && gmatchF fuel ps cs

/-- Glob matching with sufficient fuel. -/
def gmatch (p s : List Char) : Bool := gmatchF (p.length + s.length + 1) p s

/-- `fnmatch.fnmatch(name, pattern)` (on Linux `os.path.normcase` is the
identity, so no case folding happens here; the callers lower-case the
patterns themselves). -/
def fnmatchB (name pattern : String) : Bool := gmatch pattern.data name.data

namespace UtilPy

/-- `pep503_normalize` from `src/pipdeptree/_util.py`:
`re.sub("[-_.]+", "-", name).lower()`. -/
def pep503_normalize (name : String) : String :=
  lowerStr (String.mk (subSeps name.data))

end UtilPy

namespace PackagePy

/-- `pep503_normalize` from `src/pipdeptree/_models/package.py`:
`re.sub("[-_.]+", "-", name)` — note the missing `.lower()`. -/
def pep503_normalize (name : String) : String := String.mk (subSeps name.data)

/-- Word characters for the regex word boundary `\b` (`[a-zA-Z0-9_]`). -/
def isWordChar (c : Char) : Bool := c.isAlphanum || c == '_'

/-- Does the character list start with `extra`, optional whitespace, `==` —
the tail of the regex `\bextra\s*==` used by `contains_extra`? -/
def startsExtra : List Char → Bool
  | 'e' :: 'x' :: 't' :: 'r' :: 'a' :: rest =>
    match rest.dropWhile Char.isWhitespace with
    | '=' :: '=' :: _ => true
    | _ => false
  | _ => false

/-- Scanner for `re.search(r"\bextra\s*==", marker)`: a match starts at a
position that is not preceded by a word character. -/
def containsExtraAux : Bool → List Char → Bool
  | _, [] => false
  | prevW, c :: cs => (!prevW && startsExtra (c :: cs)) || containsExtraAux (isWordChar c) cs

/-- `contains_extra` from `src/pipdeptree/_models/package.py`:
`re.search(r"\bextra\s*==", marker)` used as a boolean. -/
def contains_extra (marker : String) : Bool := containsExtraAux false marker.data

/-- A parsed `packaging.requirements.Requirement`: declared name, the
specifier set as its list of operator/version strings, and the optional
environment marker rendered as a string (as the code does via `str`). -/
structure Requirement where
  name : String
  specifier : List String
  marker : Option String
deriving DecidableEq

/-- An `importlib.metadata.Distribution`: display name (`metadata["Name"]`),
installed version, and the raw requirement list `dist.requires`
(`None` when the metadata carries no `Requires-Dist` entries), with each
string already parsed into a `Requirement` record. -/
structure Distribution where
  name : String
  version : String
  requiresRaw : Option (List Requirement)

mutual

/-- `DistPackage` from `src/pipdeptree/_models/package.py`: wraps a
distribution together with the optional requirement through which it was
reached (used when rendering the reversed tree). -/
inductive DistPackage : Type where
  | mk (obj : Distribution) (req : Option ReqPackage) : DistPackage

/-- `ReqPackage` from `src/pipdeptree/_models/package.py`: wraps a parsed
requirement together with the distribution that resolves it, if any. -/
inductive ReqPackage : Type where
  | mk (obj : Requirement) (dist : Option DistPackage) : ReqPackage

end

def DistPackage.obj : DistPackage → Distribution
  | .mk o _ => o

def DistPackage.req : DistPackage → Option ReqPackage
  | .mk _ r => r

def ReqPackage.obj : ReqPackage → Requirement
  | .mk o _ => o

def ReqPackage.dist : ReqPackage → Option DistPackage
  | .mk _ d => d

/-- `Package.__init__`: importlib distributions have no `key` attribute, so
the key is the normalized `metadata["Name"]`. -/
def DistPackage.key (d : DistPackage) : String := pep503_normalize d.obj.name

/-- `Package.project_name` property: the normalized stored name. -/
def DistPackage.project_name (d : DistPackage) : String := pep503_normalize d.obj.name

/-- `DistPackage.version`: delegated to the wrapped distribution. -/
def DistPackage.version (d : DistPackage) : String := d.obj.version

/-- `Package.__init__` on the requirement side: a
`packaging.requirements.Requirement` has no `key` attribute, so the key is
the normalized declared name. -/
def ReqPackage.key (r : ReqPackage) : String := pep503_normalize r.obj.name

/-- `ReqPackage.UNKNOWN_VERSION`. -/
def UNKNOWN_VERSION : String := "?"

/-- `req.marker and contains_extra(str(req.marker))`. -/
def isExtraReq (r : Requirement) : Bool :=
  match r.marker with
  | some m => contains_extra m
  | none => false

/-- The loop body of `DistPackage.requires`: keep a requirement when it is
not conditioned on an `extra ==` marker and its declared name has not been
seen before (`req_name_list`); order is preserved. -/
def requiresLoop : List Requirement → List String → List Requirement
  | [], _ => []
  | r :: rest, names =>
    if !isExtraReq r && !(names.contains r.name) then
      r :: requiresLoop rest (r.name :: names)
    else requiresLoop rest names

/-- `DistPackage.requires` from `src/pipdeptree/_models/package.py`. -/
def DistPackage.requires (d : DistPackage) : List Requirement :=
  match d.obj.requiresRaw with
  | none => []
  | some rs => requiresLoop rs []

/-- `ReqPackage.version_spec`: the specifier strings sorted in reverse
(descending) order and joined with commas, `None` when there are none. -/
def ReqPackage.version_spec (r : ReqPackage) : Option String :=
  let specs := sortBy (fun a b => decide (b < a)) r.obj.specifier
  if specs.isEmpty then none else some (strJoin "," specs)

/-- The environment consulted by `ReqPackage.installed_version` when no
resolved distribution is attached: `metaVersion` models
`importlib.metadata.version` (`none` is `PackageNotFoundError`);
`moduleVersion` models `import_module` followed by reading `__version__`
(`none` is `ImportError`; `some none` means no usable `__version__`
attribute was found, including the nested-module case; `some (some v)`
yields the version string `v`). -/
structure Env where
  metaVersion : String → Option String
  moduleVersion : String → Option (Option String)

/-- `ReqPackage.installed_version` from `src/pipdeptree/_models/package.py`:
the resolved distribution's version if present, otherwise a chain of
environment fallbacks ending in `UNKNOWN_VERSION`. -/
def ReqPackage.installed_version (r : ReqPackage) (env : Env) : String :=
  match r.dist with
  | some d => d.version
  | none =>
    match env.metaVersion r.key with
    | some v => v
    | none =>
      if r.key = "setuptools" then UNKNOWN_VERSION
      else
        match env.moduleVersion r.key with
        | none => UNKNOWN_VERSION
        | some none => UNKNOWN_VERSION
        | some (some v) => v

/-- `ReqPackage.is_conflicting` from `src/pipdeptree/_models/package.py`.
`specContains s v` is the oracle for `v in SpecifierSet(s)`. -/
def ReqPackage.is_conflicting (r : ReqPackage) (env : Env)
    (specContains : String → String → Bool) : Bool :=
  if r.installed_version env = UNKNOWN_VERSION then true
  else
    let ver_spec := (r.version_spec).getD ""
    if ver_spec ≠ "" then !(specContains ver_spec (r.installed_version env))
    else false

/-- `DistPackage.as_parent_of`: the same instance when both the argument and
the stored requirement are absent, otherwise a copy of the wrapper around the
same distribution object carrying the new requirement. -/
def DistPackage.as_parent_of (d : DistPackage) (r : Option ReqPackage) : DistPackage :=
  match r, d.req with
  | none, none => d
  | _, _ => DistPackage.mk d.obj r

/-- Modelled from the spec (§4.6): the conflict classification in the order
the specification states it — a requirement without a version specifier is
never conflicting, before the unknown-version rule is consulted. -/
def is_conflicting_claimed (r : ReqPackage) (env : Env)
    (specContains : String → String → Bool) : Bool :=
  match r.version_spec with
  | none => false
  | some s =>
    if r.installed_version env = UNKNOWN_VERSION then true
    else !(specContains s (r.installed_version env))

/-- The conflict classification with the first two rules in the order the
code applies them: unknown installed version first, then the missing (or
empty) specifier rule, then the membership test. -/
def is_conflicting_amended (r : ReqPackage) (env : Env)
    (specContains : String → String → Bool) : Bool :=
  if r.installed_version env = UNKNOWN_VERSION then true
  else
    match r.version_spec with
    | none => false
    | some s => !(specContains s (r.installed_version env))

end PackagePy

namespace ModelsPy

mutual

/-- `DistPackage` from `src/pipdeptree/_models.py`: in this module the key is
taken directly from the wrapped `pkg_resources` distribution (`obj.key`), and
the wrapper optionally carries the requirement it was reached through.
Display-only fields (project name, version) play no role in any graph
operation modelled here and are omitted. -/
inductive DistPackage : Type where
  | mk (key : String) (req : Option ReqPackage) : DistPackage

/-- `ReqPackage` from `src/pipdeptree/_models.py`: the key is `obj.key` of the
wrapped `pkg_resources` requirement; `dist` is the resolved distribution
wrapper, if any. -/
inductive ReqPackage : Type where
  | mk (key : String) (dist : Option DistPackage) : ReqPackage

end

def DistPackage.key : DistPackage → String
  | .mk k _ => k

def DistPackage.req : DistPackage → Option ReqPackage
  | .mk _ r => r

def ReqPackage.key : ReqPackage → String
  | .mk k _ => k

def ReqPackage.dist : ReqPackage → Option DistPackage
  | .mk _ d => d

/-- The `PackageDAG` mapping, as the insertion-ordered association list that a
Python `dict` is: keys are `DistPackage`s, values their `ReqPackage` children. -/
abbrev PackageDAG : Type := List (DistPackage × List ReqPackage)

/-- The `ReversedPackageDAG` mapping: `ReqPackage` keys, `DistPackage` values. -/
abbrev ReversedPackageDAG : Type := List (ReqPackage × List DistPackage)

/-- `PackageDAG.from_pkgs`: one `DistPackage` per record, an index from key to
wrapper, and every required key resolved against that index.  A record is a
(key, required keys) pair — the keys of the `pkg_resources` objects pip hands
over (the `project_name` override performed by the source affects display
names only and no key). -/
def PackageDAG.from_pkgs (pkgs : List (String × List String)) : PackageDAG :=
  let dist_pkgs := pkgs.map (fun p => DistPackage.mk p.1 none)
  pkgs.map (fun p =>
    (DistPackage.mk p.1 none,
     p.2.map (fun rk => ReqPackage.mk rk (dist_pkgs.find? (fun d => d.key == rk)))))

/-- `PackageDAG.get_node_as_parent`: the graph key object with the given key,
if any (`self._index` lookup). -/
def PackageDAG.get_node_as_parent (g : PackageDAG) (k : String) : Option DistPackage :=
  (g.find? (fun e => e.1.key == k)).map (fun e => e.1)

/-- `PackageDAG.get_children`: the child list of the node with the given key,
empty when the key is absent. -/
def PackageDAG.get_children (g : PackageDAG) (k : String) : List ReqPackage :=
  ((g.find? (fun e => e.1.key == k)).map (fun e => e.2)).getD []

/-- `any(fnmatch(key, p) for p in pats)`. -/
def anyPatternMatch (pats : List String) (k : String) : Bool :=
  pats.any (fun p => fnmatchB k p)

/-- `m[n] = cldn` on the insertion-ordered dict: reassignment keeps the
original key object and position, a fresh key is appended at the end. -/
def setEntry : PackageDAG → DistPackage → List ReqPackage → PackageDAG
  | [], n, cs => [(n, cs)]
  | e :: rest, n, cs =>
    if e.1.key == n.key then (e.1, cs) :: rest
    else e :: setEntry rest n cs

/-- The `while stack:` loop of `PackageDAG.filter_nodes`.  The stack top is the
list head (`deque.append`/`deque.pop` work on the same end).  A popped node's
children are filtered against `exc`, the node's entry is written to `m`, its
key marked seen, and unseen, present children are pushed.  `fuel` bounds the
number of iterations; it is chosen in `filter_nodes` far above the number of
pops the loop can perform (every pushing iteration is immediately followed by
a pop of an unseen key, and there are at most as many of those as keys), so
the truncation branch is never taken. -/
def drain (g : PackageDAG) (exc : List String) :
    Nat → List DistPackage → PackageDAG → List String →
    List DistPackage × PackageDAG × List String
  | 0, stack, m, seen => (stack, m, seen)
  | _ + 1, [], m, seen => ([], m, seen)
  | fuel + 1, n :: rest, m, seen =>
    let cldn := (g.get_children n.key).filter (fun c => !anyPatternMatch exc c.key)
    let m1 := setEntry m n cldn
    let seen1 := n.key :: seen
    let pushes := cldn.filterMap (fun c =>
      if seen1.contains c.key then none else g.get_node_as_parent c.key)
    drain g exc fuel (pushes.reverse ++ rest) m1 seen1

/-- The `for node in self._obj:` loop of `filter_nodes`: skip excluded nodes,
seed the stack with the node when there is no include list or some include
pattern matches, then run the drain loop. -/
def filterOuter (g : PackageDAG) (incL : Option (List String)) (excL : List String)
    (fuel : Nat) :
    List (DistPackage × List ReqPackage) → List DistPackage → PackageDAG →
    List String → PackageDAG
  | [], _, m, _ => m
  | e :: rest, stack, m, seen =>
    if anyPatternMatch excL e.1.key then filterOuter g incL excL fuel rest stack m seen
    else
      let seeded : Bool :=
        match incL with
        | none => true
        | some il => anyPatternMatch il e.1.key
      let stack1 := if seeded then e.1 :: stack else stack
      let r := drain g excL fuel stack1 m seen
      filterOuter g incL excL fuel rest r.1 r.2.1 r.2.2

/-- A liberal upper bound on the pops any single drain can perform. -/
def fuelBound (g : PackageDAG) : Nat :=
  (g.length + (g.map (fun e => e.2.length)).sum + 2) * (g.length + 2)

/-- `PackageDAG.filter_nodes` from `src/pipdeptree/_models.py`.  `none` models
the `AssertionError` raised when the lower-cased include and exclude sets
overlap.  Both pattern sets are lower-cased; when both arguments are `None`
the graph itself is returned (identity short-circuit). -/
def PackageDAG.filter_nodes (g : PackageDAG) (inc : Option (List String))
    (exc : Option (List String)) : Option PackageDAG :=
  if inc.isNone && exc.isNone then some g
  else
    let incL : Option (List String) := inc.map (fun l => l.map lowerStr)
    let excL : List String := (exc.getD []).map lowerStr
    let bad : Bool :=
      match incL with
      | some il => !il.isEmpty && !excL.isEmpty && il.any (fun s => excL.contains s)
      | none => false
    if bad then none
    else some (filterOuter g incL excL (fuelBound g) g [] [] [])

/-- `DistPackage.as_parent_of` (the `_models.py` version behaves like the
`package.py` one): the same instance when both requirements are absent,
otherwise a copy with the new associated requirement. -/
def DistPackage.as_parent_of (d : DistPackage) (r : Option ReqPackage) : DistPackage :=
  match r, d.req with
  | none, none => d
  | _, _ => DistPackage.mk d.key r

/-- `DistPackage.as_requirement`: a `ReqPackage` for the distribution's own
key (`obj.as_requirement()` keeps the key), resolved by the distribution
itself. -/
def DistPackage.as_requirement (d : DistPackage) : ReqPackage :=
  ReqPackage.mk d.key (some d)

/-- `{r.key for r in chain.from_iterable(self._obj.values())}` as a list. -/
def childKeyList (m : PackageDAG) : List String :=
  (m.bind (fun e => e.2)).map ReqPackage.key

/-- One edge insertion of `PackageDAG.reverse`: reuse the entry whose key
string equals `v.key` (the canonical requirement node), appending `x` to its
list; otherwise a fresh entry keyed by `v` is appended at the end
(`defaultdict(list)` plus the `next(p for p in m if p.key == v.key, v)`
canonicalisation). -/
def addEdgeRev : ReversedPackageDAG → ReqPackage → DistPackage → ReversedPackageDAG
  | [], v, x => [(v, [x])]
  | e :: rest, v, x =>
    if e.1.key == v.key then (e.1, e.2 ++ [x]) :: rest
    else e :: addEdgeRev rest v x

/-- Processing of one `(k, vs)` entry in `PackageDAG.reverse`: add one
reversed edge per child, then, when `k` is not a child anywhere in the graph,
append the pseudo-entry `m[k.as_requirement()] = []`. -/
def revStep (ck : List String) (acc : ReversedPackageDAG)
    (e : DistPackage × List ReqPackage) : ReversedPackageDAG :=
  let acc1 := e.2.foldl (fun a v => addEdgeRev a v (e.1.as_parent_of (some v))) acc
  if ck.contains e.1.key then acc1 else acc1 ++ [(e.1.as_requirement, [])]

/-- `PackageDAG.reverse` from `src/pipdeptree/_models.py`. -/
def PackageDAG.reverse (m : PackageDAG) : ReversedPackageDAG :=
  m.foldl (revStep (childKeyList m)) []

/-- `{r.key for r in chain.from_iterable(self._obj.values())}` of a reversed
graph. -/
def revChildKeyList (rm : ReversedPackageDAG) : List String :=
  (rm.bind (fun e => e.2)).map DistPackage.key

/-- One edge insertion of `ReversedPackageDAG.reverse`: the canonical entry
for `v.key` is reused, otherwise a fresh entry keyed by `v.as_parent_of(None)`
is appended. -/
def addEdgeFwd : PackageDAG → DistPackage → ReqPackage → PackageDAG
  | [], v, k => [(v.as_parent_of none, [k])]
  | e :: rest, v, k =>
    if e.1.key == v.key then (e.1, e.2 ++ [k]) :: rest
    else e :: addEdgeFwd rest v k

/-- The entry loop of `ReversedPackageDAG.reverse`.  For an entry `(k, vs)`
whose key is not a value anywhere, the code executes `m[k.dist] = []`; when
`k.dist` is `None` this plants a `None` key that makes the subsequent
`PackageDAG.__init__` index construction raise (`None` has no `key`
attribute), so the whole call fails — modelled by `none`. -/
def rrevGo (ck2 : List String) : PackageDAG → ReversedPackageDAG → Option PackageDAG
  | acc, [] => some acc
  | acc, (k, vs) :: rest =>
    let acc1 := vs.foldl (fun a v => addEdgeFwd a v k) acc
    if ck2.contains k.key then rrevGo ck2 acc1 rest
    else
      match k.dist with
      | some d => rrevGo ck2 (acc1 ++ [(d, [])]) rest
      | none => none

/-- `ReversedPackageDAG.reverse` from `src/pipdeptree/_models.py`. -/
def ReversedPackageDAG.reverse (rm : ReversedPackageDAG) : Option PackageDAG :=
  rrevGo (revChildKeyList rm) [] rm

/-- `sorted_tree`: `{k: sorted(v) for k, v in sorted(tree.items())}` — both
sorts compare by `Package.__lt__`, i.e. by key string. -/
def sorted_tree (tree : PackageDAG) : PackageDAG :=
  (sortBy (fun a b => decide (a.1.key < b.1.key)) tree).map
    (fun e => (e.1, sortBy (fun a b => decide (a.key < b.key)) e.2))

/-- `PackageDAG.sort`. -/
def PackageDAG.sort (m : PackageDAG) : PackageDAG := sorted_tree m

/-- The key strings of the graph entries, in order. -/
def keyStrings (g : PackageDAG) : List String := g.map (fun e => e.1.key)

/-- The (parent key, child key) pairs of all edges of a forward graph. -/
def edgePairs (g : PackageDAG) : List (String × String) :=
  g.bind (fun e => e.2.map (fun v => (e.1.key, v.key)))

/-- The key strings of a reversed graph's entries. -/
def revKeyStrings (rm : ReversedPackageDAG) : List String :=
  rm.map (fun e => e.1.key)

/-- The (key, value key) pairs of a reversed graph. -/
def revEdgePairs (rm : ReversedPackageDAG) : List (String × String) :=
  rm.bind (fun e => e.2.map (fun v => (e.1.key, v.key)))

/-- Structural equivalence of two graphs in the sense of the specification:
the same set of node keys and, for each key, the same set of child keys
(node identity, entry order and child order are ignored). -/
def sameStructure (g1 g2 : PackageDAG) : Prop :=
  (∀ s, s ∈ keyStrings g1 ↔ s ∈ keyStrings g2) ∧
  (∀ p : String × String, p ∈ edgePairs g1 ↔ p ∈ edgePairs g2)

end ModelsPy

namespace ValidatePy

open ModelsPy

/-- `cyclic_deps` from `src/pipdeptree/_validate.py`: for every edge `(p, r)`
whose target's own children contain `p.key`, report the triple
`(p, r, p-as-dependency-of-r)`.  The `index` dictionary comprehension and the
`get_node_as_parent` lookup are both resolved through the first entry with
the relevant key, which coincides with the dictionary behaviour whenever the
graph's keys are distinct (the `next(...)` call cannot fail then either; a
failure would abort the Python call, and is modelled by skipping). -/
def cyclic_deps (tree : PackageDAG) : List (DistPackage × ReqPackage × ReqPackage) :=
  tree.bind (fun e =>
    e.2.filterMap (fun r =>
      if (((tree.find? (fun q => q.1.key == r.key)).map
            (fun q => q.2.map ReqPackage.key)).getD []).contains e.1.key then
        match tree.find? (fun q => q.1.key == r.key) with
        | some q => (q.2.find? (fun x => x.key == e.1.key)).map (fun x => (e.1, r, x))
        | none => none
      else none))

end ValidatePy

/-! ## Generic lemmas about the sorting and string utilities -/

theorem mem_insortBy {α : Type} (lt : α → α → Bool) (x : α) (l : List α) (z : α) :
    z ∈ insortBy lt x l ↔ z = x ∨ z ∈ l := by
  induction l with
  | nil => simp [insortBy]
  | cons y ys ih =>
    by_cases h : lt x y
    · rw [insortBy, if_pos h]
      simp only [List.mem_cons]
    · rw [insortBy, if_neg h]
      simp only [List.mem_cons, ih]
      tauto

theorem pairwise_insortBy {α : Type} {R : α → α → Prop} {lt : α → α → Bool}
    (h1 : ∀ a b, lt a b = true → R a b) (h2 : ∀ a b, lt a b = false → R b a)
    (htr : ∀ a b c, R a b → R b c → R a c)
    (x : α) {l : List α} (hl : l.Pairwise R) : (insortBy lt x l).Pairwise R := by
  induction l with
  | nil => simp [insortBy]
  | cons y ys ih =>
    rcases List.pairwise_cons.mp hl with ⟨hy, hys⟩
    by_cases h : lt x y
    · rw [insortBy, if_pos h]
      refine List.pairwise_cons.mpr ⟨?_, hl⟩
      intro z hz
      rcases List.mem_cons.mp hz with rfl | hz
      · exact h1 _ _ h
      · exact htr _ _ _ (h1 _ _ h) (hy _ hz)
    · rw [insortBy, if_neg h]
      refine List.pairwise_cons.mpr ⟨?_, ih hys⟩
      intro z hz
      rcases (mem_insortBy lt x ys z).mp hz with rfl | hz
      · exact h2 _ _ (by simpa using h)
      · exact hy _ hz

theorem pairwise_sortBy {α : Type} {R : α → α → Prop} {lt : α → α → Bool}
    (h1 : ∀ a b, lt a b = true → R a b) (h2 : ∀ a b, lt a b = false → R b a)
    (htr : ∀ a b c, R a b → R b c → R a c)
    (l : List α) : (sortBy lt l).Pairwise R := by
  suffices H : ∀ (l : List α) (acc : List α), acc.Pairwise R →
      (l.foldl (fun acc x => insortBy lt x acc) acc).Pairwise R by
    exact H l [] (by simp)
  intro l
  induction l with
  | nil => intro acc h; simpa using h
  | cons y ys ih =>
    intro acc h
    exact ih _ (pairwise_insortBy h1 h2 htr y h)

theorem mem_sortBy {α : Type} (lt : α → α → Bool) (l : List α) (z : α) :
    z ∈ sortBy lt l ↔ z ∈ l := by
  suffices H : ∀ (l acc : List α),
      z ∈ l.foldl (fun acc x => insortBy lt x acc) acc ↔ z ∈ acc ∨ z ∈ l by
    simpa using H l []
  intro l
  induction l with
  | nil => intro acc; simp
  | cons y ys ih =>
    intro acc
    rw [List.foldl_cons, ih, mem_insortBy]
    simp only [List.mem_cons]
    tauto

theorem strJoin_cons_ne_empty (sep : String) (a : String) (as : List String)
    (ha : a ≠ "") : strJoin sep (a :: as) ≠ "" := by
  have hlen : ∀ (l : List String) (acc : String),
      acc.length ≤ (l.foldl (fun acc x => acc ++ sep ++ x) acc).length := by
    intro l
    induction l with
    | nil => intro acc; exact le_refl _
    | cons x xs ih =>
      intro acc
      refine le_trans ?_ (ih (acc ++ sep ++ x))
      rw [String.length_append, String.length_append]
      omega
  intro h
  have h0 : a.length ≤ (strJoin sep (a :: as)).length := hlen as a
  rw [h] at h0
  have hz : a.length = 0 := Nat.le_zero.mp h0
  apply ha
  cases a with
  | mk d =>
    cases d with
    | nil => rfl
    | cons c cs => simp [String.length] at hz

/-! ## Lemmas about ASCII lower-casing and separator collapsing -/

theorem char_toNat_ofNat_valid {m : Nat} (h : m.isValidChar) : (Char.ofNat m).toNat = m := by
  simp [Char.ofNat, h, Char.ofNatAux, Char.toNat, UInt32.toNat, BitVec.toNat_ofNatLt]

theorem char_toLower_toLower (c : Char) : c.toLower.toLower = c.toLower := by
  unfold Char.toLower
  by_cases h : c.toNat ≥ 65 ∧ c.toNat ≤ 90
  · rw [if_pos h]
    have hv : (c.toNat + 32).isValidChar := by
      left
      omega
    have ht : (Char.ofNat (c.toNat + 32)).toNat = c.toNat + 32 := char_toNat_ofNat_valid hv
    rw [if_neg]
    omega
  · rw [if_neg h, if_neg h]

theorem isSepChar_false_of_toNat {c : Char} (h45 : c.toNat ≠ 45) (h95 : c.toNat ≠ 95)
    (h46 : c.toNat ≠ 46) : isSepChar c = false := by
  have h1 : (c == '-') = false := beq_eq_false_iff_ne.mpr (fun hc => h45 (by rw [hc]; decide))
  have h2 : (c == '_') = false := beq_eq_false_iff_ne.mpr (fun hc => h95 (by rw [hc]; decide))
  have h3 : (c == '.') = false := beq_eq_false_iff_ne.mpr (fun hc => h46 (by rw [hc]; decide))
  simp [isSepChar, h1, h2, h3]

theorem isSepChar_toLower (c : Char) : isSepChar c.toLower = isSepChar c := by
  by_cases h : c.toNat ≥ 65 ∧ c.toNat ≤ 90
  · have hv : (c.toNat + 32).isValidChar := by left; omega
    have ht : (Char.ofNat (c.toNat + 32)).toNat = c.toNat + 32 := char_toNat_ofNat_valid hv
    have hlow : c.toLower = Char.ofNat (c.toNat + 32) := by
      unfold Char.toLower
      rw [if_pos h]
    rw [hlow]
    have hout : isSepChar (Char.ofNat (c.toNat + 32)) = false :=
      isSepChar_false_of_toNat (by omega) (by omega) (by omega)
    have hin : isSepChar c = false :=
      isSepChar_false_of_toNat (by omega) (by omega) (by omega)
    rw [hout, hin]
  · have hlow : c.toLower = c := by
      unfold Char.toLower
      rw [if_neg h]
    rw [hlow]

theorem toLower_sep_fixed {c : Char} (hs : isSepChar c = true) : c.toLower = c := by
  have : c = '-' ∨ c = '_' ∨ c = '.' := by
    have h1 := hs
    simp [isSepChar] at h1
    tauto
  rcases this with rfl | rfl | rfl <;> decide

theorem subSepsAux_map_toLower (l : List Char) :
    ∀ b, subSepsAux b (l.map Char.toLower) = (subSepsAux b l).map Char.toLower := by
  induction l with
  | nil => intro b; simp [subSepsAux]
  | cons c cs ih =>
    intro b
    by_cases hs : isSepChar c = true
    · have hlow : c.toLower = c := toLower_sep_fixed hs
      cases b with
      | true => simp [subSepsAux, hlow, hs, ih]
      | false => simp [subSepsAux, hlow, hs, ih, toLower_sep_fixed]
    · have hsf : isSepChar c = false := by simpa using hs
      have hs2 : isSepChar c.toLower = false := by rw [isSepChar_toLower]; exact hsf
      cases b with
      | true => simp [subSepsAux, hsf, hs2, ih]
      | false => simp [subSepsAux, hsf, hs2, ih]

theorem subSepsAux_idem (l : List Char) :
    ∀ b, subSepsAux b (subSepsAux b l) = subSepsAux b l := by
  induction l with
  | nil => intro b; simp [subSepsAux]
  | cons c cs ih =>
    intro b
    by_cases hs : isSepChar c = true
    · cases b with
      | true => simp [subSepsAux, hs, ih]
      | false =>
        have hdash : isSepChar '-' = true := by decide
        simp [subSepsAux, hs, ih, hdash]
    · have hsf : isSepChar c = false := by simpa using hs
      cases b with
      | true => simp [subSepsAux, hsf, ih]
      | false => simp [subSepsAux, hsf, ih]

theorem map_toLower_idem (l : List Char) :
    (l.map Char.toLower).map Char.toLower = l.map Char.toLower := by
  rw [List.map_map]
  apply List.map_congr_left
  intro c _
  exact char_toLower_toLower c

/-! ## C4 — key normalization -/

/-- C4: `pep503_normalize` as implemented in `_util.py` is idempotent and
case/separator-insensitive exactly as claimed (`normalize("Foo.Bar") ==
normalize("foo-bar") == normalize("FOO_BAR")`, with runs of `.`, `_`, `-`
collapsed to a single `-` and case folded); the variant in
`_models/package.py`, although also named after PEP 503, omits the `.lower()`
call and already fails the claim's first equality — the code bug recorded for
this claim. -/
theorem c4_normalize_idempotent_and_case_insensitive :
    (∀ x : String,
        UtilPy.pep503_normalize (UtilPy.pep503_normalize x) = UtilPy.pep503_normalize x) ∧
    UtilPy.pep503_normalize "Foo.Bar" = UtilPy.pep503_normalize "foo-bar" ∧
    UtilPy.pep503_normalize "foo-bar" = UtilPy.pep503_normalize "FOO_BAR" ∧
    UtilPy.pep503_normalize "Foo.Bar" = "foo-bar" ∧
    PackagePy.pep503_normalize "Foo.Bar" = "Foo-Bar" ∧
    PackagePy.pep503_normalize "Foo.Bar" ≠ PackagePy.pep503_normalize "foo-bar" := by
  refine ⟨?_, by decide, by decide, by decide, by decide, by decide⟩
  intro x
  show String.mk ((subSepsAux false ((subSepsAux false x.data).map Char.toLower)).map Char.toLower)
      = String.mk ((subSepsAux false x.data).map Char.toLower)
  rw [subSepsAux_map_toLower, subSepsAux_idem, map_toLower_idem]

/-! ## C10 — `DistPackage.as_parent_of` -/

/-- C10: `as_parent_of` returns a wrapper around the same underlying
distribution — equal key, project name and version — whose associated
requirement is exactly the argument; and when the argument is `None` and the
instance has no associated requirement, the very same instance is returned. -/
theorem c10_as_parent_of_frame (d : PackagePy.DistPackage) (r : Option PackagePy.ReqPackage) :
    ((d.as_parent_of r).obj = d.obj ∧
     (d.as_parent_of r).key = d.key ∧
     (d.as_parent_of r).project_name = d.project_name ∧
     (d.as_parent_of r).version = d.version ∧
     (d.as_parent_of r).req = r) ∧
    (r = none → d.req = none → d.as_parent_of r = d) := by
  cases d with
  | mk o q =>
    cases r with
    | none =>
      cases q with
      | none =>
        refine ⟨⟨rfl, rfl, rfl, rfl, rfl⟩, fun _ _ => rfl⟩
      | some q0 =>
        refine ⟨⟨rfl, rfl, rfl, rfl, rfl⟩, fun _ h => ?_⟩
        exact absurd h (by simp [PackagePy.DistPackage.req])
    | some r0 =>
      refine ⟨⟨rfl, rfl, rfl, rfl, rfl⟩, fun h _ => by cases h⟩

/-- Witness for C10 at a concrete instance: the identity case really returns
the instance unchanged. -/
theorem c10_as_parent_of_frame_witness :
    (PackagePy.DistPackage.mk ⟨"foo", "20.4.1", none⟩ none).as_parent_of none
      = PackagePy.DistPackage.mk ⟨"foo", "20.4.1", none⟩ none :=
  (c10_as_parent_of_frame (PackagePy.DistPackage.mk ⟨"foo", "20.4.1", none⟩ none) none).2 rfl rfl

/-! ## C2 — conflict classification -/

/-- C2 counterexample: a requirement with no version specifier whose target
is not installed (and not guessable from the environment).  The code reports
it as conflicting because the unknown-installed-version rule is applied
before the no-specifier rule; the claim, which puts the no-specifier rule
first, says it is never conflicting. -/
theorem c2_counterexample :
    (PackagePy.ReqPackage.mk ⟨"foo", [], none⟩ none).version_spec = none ∧
    (PackagePy.ReqPackage.mk ⟨"foo", [], none⟩ none).dist = none ∧
    (PackagePy.ReqPackage.mk ⟨"foo", [], none⟩ none).installed_version
      ⟨fun _ => none, fun _ => none⟩ = PackagePy.UNKNOWN_VERSION ∧
    (PackagePy.ReqPackage.mk ⟨"foo", [], none⟩ none).is_conflicting
      ⟨fun _ => none, fun _ => none⟩ (fun _ _ => true) = true ∧
    PackagePy.is_conflicting_claimed (PackagePy.ReqPackage.mk ⟨"foo", [], none⟩ none)
      ⟨fun _ => none, fun _ => none⟩ (fun _ _ => true) = false := by
  refine ⟨by decide, rfl, by decide, by decide, by decide⟩

/-- C2 amended: with the first two rules swapped — unknown installed version
always conflicts, then an absent specifier never conflicts, otherwise the
membership test decides — the classification matches the code on every
requirement whose specifier strings are non-empty (as the strings rendered
by `packaging` always are). -/
theorem c2_conflict_classification_amended (r : PackagePy.ReqPackage) (env : PackagePy.Env)
    (specContains : String → String → Bool)
    (hspec : ∀ s ∈ r.obj.specifier, s ≠ "") :
    r.is_conflicting env specContains = PackagePy.is_conflicting_amended r env specContains := by
  unfold PackagePy.ReqPackage.is_conflicting PackagePy.is_conflicting_amended
  by_cases hu : r.installed_version env = PackagePy.UNKNOWN_VERSION
  · rw [if_pos hu, if_pos hu]
  · rw [if_neg hu, if_neg hu]
    cases hv : r.version_spec with
    | none => simp [hv]
    | some s =>
      have hne : s ≠ "" := by
        unfold PackagePy.ReqPackage.version_spec at hv
        simp only [] at hv
        rcases hsp : sortBy (fun a b => decide (b < a)) r.obj.specifier with _ | ⟨a, as⟩
        · rw [hsp] at hv
          simp at hv
        · rw [hsp] at hv
          simp at hv
          have ha : a ∈ r.obj.specifier := by
            have := (mem_sortBy (fun a b => decide (b < a)) r.obj.specifier a).mp
            apply this
            rw [hsp]
            exact List.mem_cons_self a as
          have := strJoin_cons_ne_empty "," a as (hspec a ha)
          rwa [hv] at this
      simp [hv, hne]

/-- Witness for the amended C2 theorem at a concrete requirement with a
non-empty specifier. -/
theorem c2_conflict_classification_amended_witness :
    (∀ s ∈ (PackagePy.Requirement.mk "bar" [">=4.0"] none).specifier, s ≠ "") ∧
    (PackagePy.ReqPackage.mk ⟨"bar", [">=4.0"], none⟩ none).is_conflicting
        ⟨fun _ => none, fun _ => none⟩ (fun _ _ => false)
      = PackagePy.is_conflicting_amended (PackagePy.ReqPackage.mk ⟨"bar", [">=4.0"], none⟩ none)
        ⟨fun _ => none, fun _ => none⟩ (fun _ _ => false) :=
  ⟨by decide,
   c2_conflict_classification_amended (PackagePy.ReqPackage.mk ⟨"bar", [">=4.0"], none⟩ none)
     ⟨fun _ => none, fun _ => none⟩ (fun _ _ => false) (by decide)⟩

/-! ## C3 — installed version of a requirement -/

/-- C3 counterexample: a requirement with no resolved distribution whose key
the environment metadata still knows a version for.  The code returns that
version, not the sentinel, so other fallback sources are consulted. -/
theorem c3_counterexample :
    (PackagePy.ReqPackage.mk ⟨"foo", [], none⟩ none).dist = none ∧
    (PackagePy.ReqPackage.mk ⟨"foo", [], none⟩ none).installed_version
      ⟨fun _ => some "1.0", fun _ => none⟩ = "1.0" ∧
    (PackagePy.ReqPackage.mk ⟨"foo", [], none⟩ none).installed_version
      ⟨fun _ => some "1.0", fun _ => none⟩ ≠ PackagePy.UNKNOWN_VERSION := by
  refine ⟨rfl, by decide, by decide⟩

/-- C3 amended: the installed version is the resolved distribution's version
when one is attached; otherwise the code falls back to the environment's
package metadata, then (except for `setuptools`, which is special-cased to
the sentinel) to the module's `__version__` attribute, and yields the
sentinel `"?"` only when every fallback fails. -/
theorem c3_installed_version_amended (r : PackagePy.ReqPackage) (env : PackagePy.Env) :
    (∀ d, r.dist = some d → r.installed_version env = d.version) ∧
    (r.dist = none → ∀ v, env.metaVersion r.key = some v → r.installed_version env = v) ∧
    (r.dist = none → env.metaVersion r.key = none → r.key = "setuptools" →
        r.installed_version env = PackagePy.UNKNOWN_VERSION) ∧
    (r.dist = none → env.metaVersion r.key = none → r.key ≠ "setuptools" →
        env.moduleVersion r.key = none →
        r.installed_version env = PackagePy.UNKNOWN_VERSION) ∧
    (r.dist = none → env.metaVersion r.key = none → r.key ≠ "setuptools" →
        env.moduleVersion r.key = some none →
        r.installed_version env = PackagePy.UNKNOWN_VERSION) ∧
    (r.dist = none → env.metaVersion r.key = none → r.key ≠ "setuptools" →
        ∀ v, env.moduleVersion r.key = some (some v) → r.installed_version env = v) := by
  unfold PackagePy.ReqPackage.installed_version
  refine ⟨?_, ?_, ?_, ?_, ?_, ?_⟩
  · intro d hd
    rw [hd]
  · intro hd v hv
    rw [hd, hv]
  · intro hd hm hk
    rw [hd, hm, if_pos hk]
  · intro hd hm hk hmod
    rw [hd, hm, if_neg hk, hmod]
  · intro hd hm hk hmod
    rw [hd, hm, if_neg hk, hmod]
  · intro hd hm hk v hmod
    rw [hd, hm, if_neg hk, hmod]

/-- Witness for the amended C3 theorem: the metadata fallback applied at a
concrete requirement. -/
theorem c3_installed_version_amended_witness :
    (PackagePy.ReqPackage.mk ⟨"foo", [], none⟩ none).installed_version
      ⟨fun _ => some "1.0", fun _ => none⟩ = "1.0" :=
  (c3_installed_version_amended (PackagePy.ReqPackage.mk ⟨"foo", [], none⟩ none)
      ⟨fun _ => some "1.0", fun _ => none⟩).2.1 rfl "1.0" rfl

/-! ## C8 — requirement list of a distribution -/

theorem requiresLoop_sublist (rs : List PackagePy.Requirement) (names : List String) :
    (PackagePy.requiresLoop rs names).Sublist rs := by
  induction rs generalizing names with
  | nil => simp [PackagePy.requiresLoop]
  | cons r rest ih =>
    rw [PackagePy.requiresLoop]
    by_cases h : (!PackagePy.isExtraReq r && !(names.contains r.name)) = true
    · rw [if_pos h]
      exact List.Sublist.cons₂ r (ih _)
    · rw [if_neg h]
      exact List.Sublist.cons r (ih _)

theorem requiresLoop_props (rs : List PackagePy.Requirement) :
    ∀ (names : List String), ∀ r ∈ PackagePy.requiresLoop rs names,
      PackagePy.isExtraReq r = false ∧ r.name ∉ names := by
  induction rs with
  | nil => intro names r hr; simp [PackagePy.requiresLoop] at hr
  | cons r0 rest ih =>
    intro names r hr
    rw [PackagePy.requiresLoop] at hr
    by_cases h : (!PackagePy.isExtraReq r0 && !(names.contains r0.name)) = true
    · rw [if_pos h] at hr
      rcases List.mem_cons.mp hr with rfl | hr
      · simp only [Bool.and_eq_true, Bool.not_eq_true'] at h
        refine ⟨h.1, ?_⟩
        intro hmem
        have : names.contains r.name = true := List.elem_eq_true_of_mem hmem
        rw [this] at h
        exact absurd h.2 (by decide)
      · have := ih (r0.name :: names) r hr
        exact ⟨this.1, fun hm => this.2 (List.mem_cons_of_mem _ hm)⟩
    · rw [if_neg h] at hr
      exact ih names r hr

theorem requiresLoop_names_nodup (rs : List PackagePy.Requirement) :
    ∀ (names : List String),
      ((PackagePy.requiresLoop rs names).map PackagePy.Requirement.name).Nodup := by
  induction rs with
  | nil => intro names; simp [PackagePy.requiresLoop]
  | cons r0 rest ih =>
    intro names
    rw [PackagePy.requiresLoop]
    by_cases h : (!PackagePy.isExtraReq r0 && !(names.contains r0.name)) = true
    · rw [if_pos h]
      rw [List.map_cons, List.nodup_cons]
      refine ⟨?_, ih _⟩
      intro hmem
      rcases List.mem_map.mp hmem with ⟨q, hq, hname⟩
      have := (requiresLoop_props rest (r0.name :: names) q hq).2
      exact this (by rw [hname]; exact List.mem_cons_self _ _)
    · rw [if_neg h]
      exact ih names

theorem requiresLoop_complete (rs : List PackagePy.Requirement) :
    ∀ (names : List String), ∀ r ∈ rs, PackagePy.isExtraReq r = false →
      r.name ∈ names ∨ ∃ q ∈ PackagePy.requiresLoop rs names, q.name = r.name := by
  induction rs with
  | nil => intro names r hr; simp at hr
  | cons r0 rest ih =>
    intro names r hr hx
    rw [PackagePy.requiresLoop]
    by_cases h : (!PackagePy.isExtraReq r0 && !(names.contains r0.name)) = true
    · rw [if_pos h]
      rcases List.mem_cons.mp hr with heq | hr
      · exact Or.inr ⟨r0, List.mem_cons_self _ _, by rw [heq]⟩
      · rcases ih (r0.name :: names) r hr hx with hm | ⟨q, hq, hname⟩
        · rcases List.mem_cons.mp hm with heq | hm
          · exact Or.inr ⟨r0, List.mem_cons_self _ _, heq.symm⟩
          · exact Or.inl hm
        · exact Or.inr ⟨q, List.mem_cons_of_mem _ hq, hname⟩
    · rw [if_neg h]
      rcases List.mem_cons.mp hr with heq | hr
      · have hcon : names.contains r.name = true := by
          cases hcb : names.contains r.name with
          | false =>
            exfalso
            apply h
            rw [heq] at hx hcb
            rw [hx, hcb]
            rfl
          | true => rfl
        exact Or.inl (List.mem_of_elem_eq_true hcon)
      · exact ih names r hr hx

theorem requiresLoop_mem_iff (rs : List PackagePy.Requirement) :
    ∀ (names : List String) (r : PackagePy.Requirement),
      r ∈ PackagePy.requiresLoop rs names ↔
        ∃ pre post, rs = pre ++ r :: post ∧
          PackagePy.isExtraReq r = false ∧
          r.name ∉ names ∧
          ∀ p ∈ pre, p.name = r.name → PackagePy.isExtraReq p = true := by
  induction rs with
  | nil =>
    intro names r
    constructor
    · intro h
      simp [PackagePy.requiresLoop] at h
    · rintro ⟨pre, post, heq, -, -, -⟩
      cases pre <;> simp at heq
  | cons r0 rest ih =>
    intro names r
    rw [PackagePy.requiresLoop]
    by_cases c : (!PackagePy.isExtraReq r0 && !(names.contains r0.name)) = true
    · rw [if_pos c]
      have hc : PackagePy.isExtraReq r0 = false ∧ names.contains r0.name = false := by
        simp only [Bool.and_eq_true, Bool.not_eq_true'] at c
        exact c
      have hni : r0.name ∉ names := by
        intro hm
        have h1 : names.contains r0.name = true := List.elem_eq_true_of_mem hm
        rw [h1] at hc
        exact absurd hc.2 (by decide)
      constructor
      · intro h
        rcases List.mem_cons.mp h with rfl | h2
        · exact ⟨[], rest, rfl, hc.1, hni, fun p hp => absurd hp (List.not_mem_nil p)⟩
        · rcases (ih (r0.name :: names) r).mp h2 with ⟨pre, post, heq, hx, hnm, hall⟩
          refine ⟨r0 :: pre, post, ?_, hx, ?_, ?_⟩
          · rw [List.cons_append, heq]
          · exact fun hm => hnm (List.mem_cons_of_mem _ hm)
          · intro p hp hpn
            rcases List.mem_cons.mp hp with rfl | hp2
            · exfalso
              apply hnm
              rw [← hpn]
              exact List.mem_cons_self _ _
            · exact hall p hp2 hpn
      · rintro ⟨pre, post, heq, hx, hnm, hall⟩
        cases pre with
        | nil =>
          simp only [List.nil_append] at heq
          injection heq with h1 h2
          rw [← h1]
          exact List.mem_cons_self _ _
        | cons q pre2 =>
          simp only [List.cons_append] at heq
          injection heq with h1 h2
          subst h1
          apply List.mem_cons_of_mem
          refine (ih (r0.name :: names) r).mpr ⟨pre2, post, h2, hx, ?_, ?_⟩
          · intro hm
            rcases List.mem_cons.mp hm with h3 | h3
            · have hx0 := hall r0 (List.mem_cons_self _ _) h3.symm
              rw [hx0] at hc
              exact absurd hc.1 (by decide)
            · exact hnm h3
          · exact fun p hp hpn => hall p (List.mem_cons_of_mem _ hp) hpn
    · rw [if_neg c]
      have hc : PackagePy.isExtraReq r0 = true ∨ r0.name ∈ names := by
        by_cases hx0 : PackagePy.isExtraReq r0 = true
        · exact Or.inl hx0
        · right
          cases h2 : names.contains r0.name with
          | true => exact List.mem_of_elem_eq_true h2
          | false =>
            exfalso
            apply c
            have hx0f : PackagePy.isExtraReq r0 = false := by
              cases hxx : PackagePy.isExtraReq r0 with
              | false => rfl
              | true => exact absurd hxx hx0
            simp [hx0f, h2]
            intro hm
            have h3 : names.contains r0.name = true := List.elem_eq_true_of_mem hm
            rw [h3] at h2
            exact absurd h2 (by decide)
      rw [ih names r]
      constructor
      · rintro ⟨pre, post, heq, hx, hnm, hall⟩
        refine ⟨r0 :: pre, post, ?_, hx, hnm, ?_⟩
        · rw [List.cons_append, heq]
        · intro p hp hpn
          rcases List.mem_cons.mp hp with rfl | hp2
          · rcases hc with hx0 | hmem
            · exact hx0
            · exact absurd (hpn ▸ hmem) hnm
          · exact hall p hp2 hpn
      · rintro ⟨pre, post, heq, hx, hnm, hall⟩
        cases pre with
        | nil =>
          simp only [List.nil_append] at heq
          injection heq with h1 h2
          exfalso
          rcases hc with hx0 | hmem
          · rw [h1] at hx0
            rw [hx0] at hx
            exact absurd hx (by decide)
          · rw [h1] at hmem
            exact hnm hmem
        | cons q pre2 =>
          simp only [List.cons_append] at heq
          injection heq with h1 h2
          subst h1
          exact ⟨pre2, post, h2, hx, hnm,
            fun p hp hpn => hall p (List.mem_cons_of_mem _ hp) hpn⟩

/-- C8 counterexample: two requirement strings whose declared names differ
only in the separator (`foo.bar` and `foo_bar`) name the same target key;
the code deduplicates by exact declared name and keeps both, where the claim
says the later one must be dropped. -/
theorem c8_counterexample :
    ((PackagePy.DistPackage.mk
        ⟨"pkg", "1.0", some [⟨"foo.bar", [], none⟩, ⟨"foo_bar", [], none⟩]⟩
        none).requires).length = 2 ∧
    ((PackagePy.DistPackage.mk
        ⟨"pkg", "1.0", some [⟨"foo.bar", [], none⟩, ⟨"foo_bar", [], none⟩]⟩
        none).requires).map (fun q => PackagePy.pep503_normalize q.name)
      = ["foo-bar", "foo-bar"] ∧
    UtilPy.pep503_normalize "foo.bar" = UtilPy.pep503_normalize "foo_bar" := by
  refine ⟨by decide, by decide, by decide⟩

/-- C8 amended: `requires` preserves declaration order (it is a sublist of
the raw requirement list), contains no requirement conditioned on an
`extra ==` marker, and is deduplicated by the declared requirement *name*
(exact string, first occurrence wins) — not by normalized target key, so
differently spelled names of the same target are all retained.  The final
conjunct makes "first occurrence wins" exact: a requirement appears in the
output iff it occurs in the raw list at a position where it is not
extra-marked and every earlier same-name requirement is extra-marked (and
hence dropped) — so the later of two non-extra same-name requirements is
never the survivor. -/
theorem c8_requires_amended (d : PackagePy.DistPackage) :
    ((d.requires).Sublist (d.obj.requiresRaw.getD [])) ∧
    (∀ r ∈ d.requires, PackagePy.isExtraReq r = false) ∧
    (((d.requires).map PackagePy.Requirement.name).Nodup) ∧
    (∀ r ∈ d.obj.requiresRaw.getD [], PackagePy.isExtraReq r = false →
        ∃ q ∈ d.requires, q.name = r.name) ∧
    (∀ r, r ∈ d.requires ↔
      ∃ pre post, d.obj.requiresRaw.getD [] = pre ++ r :: post ∧
        PackagePy.isExtraReq r = false ∧
        ∀ p ∈ pre, p.name = r.name → PackagePy.isExtraReq p = true) := by
  unfold PackagePy.DistPackage.requires
  cases h : d.obj.requiresRaw with
  | none =>
    refine ⟨by simp, by simp, by simp, by simp, ?_⟩
    intro r
    simp only [Option.getD_none, List.not_mem_nil, false_iff]
    rintro ⟨pre, post, heq, -, -⟩
    cases pre <;> simp at heq
  | some rs =>
    simp only [Option.getD_some]
    refine ⟨requiresLoop_sublist rs [], ?_, requiresLoop_names_nodup rs [], ?_, ?_⟩
    · intro r hr
      exact (requiresLoop_props rs [] r hr).1
    · intro r hr hx
      rcases requiresLoop_complete rs [] r hr hx with hm | h
      · simp at hm
      · exact h
    · intro r
      rw [requiresLoop_mem_iff rs [] r]
      constructor
      · rintro ⟨pre, post, h1, h2, -, h4⟩
        exact ⟨pre, post, h1, h2, h4⟩
      · rintro ⟨pre, post, h1, h2, h4⟩
        exact ⟨pre, post, h1, h2, List.not_mem_nil r.name, h4⟩

/-- Witness for the amended C8 theorem at a concrete distribution declaring
the same name `foo` twice with different specifiers: the first occurrence
survives into `requires` (shown by applying the membership
characterization) and the second does not. -/
theorem c8_requires_amended_witness :
    PackagePy.Requirement.mk "foo" ["one"] none ∈
      (PackagePy.DistPackage.mk
        ⟨"pkg", "1.0",
          some [⟨"foo", ["one"], none⟩, ⟨"foo", ["two"], none⟩]⟩ none).requires ∧
    PackagePy.Requirement.mk "foo" ["two"] none ∉
      (PackagePy.DistPackage.mk
        ⟨"pkg", "1.0",
          some [⟨"foo", ["one"], none⟩, ⟨"foo", ["two"], none⟩]⟩ none).requires :=
  ⟨((c8_requires_amended (PackagePy.DistPackage.mk
        ⟨"pkg", "1.0",
          some [⟨"foo", ["one"], none⟩, ⟨"foo", ["two"], none⟩]⟩ none)).2.2.2.2
      (PackagePy.Requirement.mk "foo" ["one"] none)).mpr
    ⟨[], [⟨"foo", ["two"], none⟩], rfl, rfl,
      fun p hp => absurd hp (List.not_mem_nil p)⟩,
    by decide⟩

/-! ## C9 — sorted iteration order -/

/-- C9: `sort()` yields a graph whose entries are in ascending key order and
whose child lists are each in ascending key order, so renderers need not
re-sort. -/
theorem c9_sort_sorted (tree : ModelsPy.PackageDAG) :
    ((ModelsPy.PackageDAG.sort tree).Pairwise
        (fun a b => a.1.key ≤ b.1.key)) ∧
    (∀ e ∈ ModelsPy.PackageDAG.sort tree,
        e.2.Pairwise (fun a b => ModelsPy.ReqPackage.key a ≤ ModelsPy.ReqPackage.key b)) := by
  unfold ModelsPy.PackageDAG.sort ModelsPy.sorted_tree
  constructor
  · rw [List.pairwise_map]
    apply pairwise_sortBy
    · intro a b h
      exact le_of_lt (of_decide_eq_true h)
    · intro a b h
      exact not_lt.mp (of_decide_eq_false h)
    · intro a b c h1 h2
      exact le_trans h1 h2
  · intro e he
    rcases List.mem_map.mp he with ⟨e0, _, rfl⟩
    apply pairwise_sortBy
    · intro a b h
      exact le_of_lt (of_decide_eq_true h)
    · intro a b h
      exact not_lt.mp (of_decide_eq_false h)
    · intro a b c h1 h2
      exact le_trans h1 h2

/-! ## C5 — include patterns matching nothing -/

/-- C5: filtering a non-empty graph with include patterns that match no node
key succeeds and returns an empty graph; no "no match" error is raised (the
repository's own test `test_package_dag_filter_nonexistent_packages` expects
a `ValueError` naming the patterns here). -/
theorem c5_filter_no_match_returns_empty_graph :
    ModelsPy.PackageDAG.filter_nodes
        (ModelsPy.PackageDAG.from_pkgs [("a-a", ["a-b"]), ("a-b", [])])
        (some ["x", "y", "z"]) none
      = some [] := by
  rfl

/-! ## C7 — two-node cycles are reported in both rotations -/

theorem find?_entry_of_mem (tree : ModelsPy.PackageDAG)
    (hnd : (ModelsPy.keyStrings tree).Nodup)
    {p : ModelsPy.DistPackage} {rs : List ModelsPy.ReqPackage}
    (h : (p, rs) ∈ tree) :
    tree.find? (fun q => q.1.key == p.key) = some (p, rs) := by
  induction tree with
  | nil => simp at h
  | cons e rest ih =>
    rcases List.mem_cons.mp h with heq | hmem
    · rw [← heq]
      rw [List.find?_cons_of_pos]
      simp
    · have hnd' : (ModelsPy.keyStrings rest).Nodup := by
        have : ModelsPy.keyStrings (e :: rest) = e.1.key :: ModelsPy.keyStrings rest := rfl
        rw [this] at hnd
        exact (List.nodup_cons.mp hnd).2
    
      have hne : e.1.key ≠ p.key := by
        intro hk
        have hhead : e.1.key ∉ ModelsPy.keyStrings rest := by
          have : ModelsPy.keyStrings (e :: rest) = e.1.key :: ModelsPy.keyStrings rest := rfl
          rw [this] at hnd
          exact (List.nodup_cons.mp hnd).1
        apply hhead
        rw [hk]
        exact List.mem_map.mpr ⟨(p, rs), hmem, rfl⟩
      rw [List.find?_cons_of_neg]
      · exact ih hnd' hmem
      · simp [hne]

theorem cyclic_deps_mem (tree : ModelsPy.PackageDAG)
    (hnd : (ModelsPy.keyStrings tree).Nodup)
    {pa : ModelsPy.DistPackage} {rsa : List ModelsPy.ReqPackage}
    {rb : ModelsPy.ReqPackage}
    {pb : ModelsPy.DistPackage} {rsb : List ModelsPy.ReqPackage}
    {ra : ModelsPy.ReqPackage}
    (ha : (pa, rsa) ∈ tree) (hrb : rb ∈ rsa)
    (hb : (pb, rsb) ∈ tree) (hkey : pb.key = rb.key)
    (hra : ra ∈ rsb) (hrak : ra.key = pa.key) :
    ∃ t ∈ ValidatePy.cyclic_deps tree,
      t.1 = pa ∧ t.2.1 = rb ∧ t.2.2.key = pa.key := by
  have hfind : tree.find? (fun q => q.1.key == rb.key) = some (pb, rsb) := by
    have h0 := find?_entry_of_mem tree hnd hb
    rw [hkey] at h0
    exact h0
  obtain ⟨x, hxfind, hxkey⟩ :
      ∃ x, rsb.find? (fun x => x.key == pa.key) = some x ∧ x.key = pa.key := by
    cases hx : rsb.find? (fun x => x.key == pa.key) with
    | none =>
      exfalso
      have hnone := List.find?_eq_none.mp hx ra hra
      apply hnone
      simp [hrak]
    | some x =>
      refine ⟨x, rfl, ?_⟩
      have hp := List.find?_some hx
      simpa using hp
  refine ⟨(pa, rb, x), ?_, rfl, rfl, by rw [hxkey]⟩
  unfold ValidatePy.cyclic_deps
  apply List.mem_bind.mpr
  refine ⟨(pa, rsa), ha, ?_⟩
  apply List.mem_filterMap.mpr
  refine ⟨rb, hrb, ?_⟩
  have hcond : (((tree.find? (fun q => q.1.key == rb.key)).map
      (fun q => q.2.map ModelsPy.ReqPackage.key)).getD []).contains pa.key = true := by
    rw [hfind]
    apply List.elem_eq_true_of_mem
    exact List.mem_map.mpr ⟨ra, hra, hrak⟩
  rw [hfind] at hcond
  simp only [hfind, hxfind]
  rw [if_pos hcond]
  rfl

/-- C7: whenever the graph contains the two-node cycle A→B, B→A (with
distinct node keys), `cyclic_deps` reports both rotations: a triple with
keys (A, B, A) and a triple with keys (B, A, B). -/
theorem c7_two_cycle_rotations (tree : ModelsPy.PackageDAG)
    (hnd : (ModelsPy.keyStrings tree).Nodup)
    (a b : String)
    (pa : ModelsPy.DistPackage) (rsa : List ModelsPy.ReqPackage)
    (ha : (pa, rsa) ∈ tree) (hpa : pa.key = a)
    (rb : ModelsPy.ReqPackage) (hrb : rb ∈ rsa) (hrbk : rb.key = b)
    (pb : ModelsPy.DistPackage) (rsb : List ModelsPy.ReqPackage)
    (hb : (pb, rsb) ∈ tree) (hpb : pb.key = b)
    (ra : ModelsPy.ReqPackage) (hra : ra ∈ rsb) (hrak : ra.key = a) :
    (∃ t ∈ ValidatePy.cyclic_deps tree,
        t.1.key = a ∧ t.2.1.key = b ∧ t.2.2.key = a) ∧
    (∃ t ∈ ValidatePy.cyclic_deps tree,
        t.1.key = b ∧ t.2.1.key = a ∧ t.2.2.key = b) := by
  constructor
  · obtain ⟨t, ht, h1, h2, h3⟩ :=
      cyclic_deps_mem tree hnd ha hrb hb (by rw [hpb, hrbk]) hra (by rw [hrak, hpa])
    exact ⟨t, ht, by rw [h1, hpa], by rw [h2, hrbk], by rw [h3, hpa]⟩
  · obtain ⟨t, ht, h1, h2, h3⟩ :=
      cyclic_deps_mem tree hnd hb hra ha (by rw [hpa, hrak]) hrb (by rw [hrbk, hpb])
    exact ⟨t, ht, by rw [h1, hpb], by rw [h2, hrak], by rw [h3, hpb]⟩

/-- Witness for C7 on the concrete two-node cycle a→b, b→a. -/
theorem c7_two_cycle_rotations_witness :
    (∃ t ∈ ValidatePy.cyclic_deps
        [(ModelsPy.DistPackage.mk "a" none, [ModelsPy.ReqPackage.mk "b" none]),
         (ModelsPy.DistPackage.mk "b" none, [ModelsPy.ReqPackage.mk "a" none])],
        t.1.key = "a" ∧ t.2.1.key = "b" ∧ t.2.2.key = "a") ∧
    (∃ t ∈ ValidatePy.cyclic_deps
        [(ModelsPy.DistPackage.mk "a" none, [ModelsPy.ReqPackage.mk "b" none]),
         (ModelsPy.DistPackage.mk "b" none, [ModelsPy.ReqPackage.mk "a" none])],
        t.1.key = "b" ∧ t.2.1.key = "a" ∧ t.2.2.key = "b") :=
  c7_two_cycle_rotations
    [(ModelsPy.DistPackage.mk "a" none, [ModelsPy.ReqPackage.mk "b" none]),
     (ModelsPy.DistPackage.mk "b" none, [ModelsPy.ReqPackage.mk "a" none])]
    (by decide) "a" "b"
    (ModelsPy.DistPackage.mk "a" none) [ModelsPy.ReqPackage.mk "b" none]
    (List.Mem.head _) rfl
    (ModelsPy.ReqPackage.mk "b" none) (List.Mem.head _) rfl
    (ModelsPy.DistPackage.mk "b" none) [ModelsPy.ReqPackage.mk "a" none]
    (List.Mem.tail _ (List.Mem.head _)) rfl
    (ModelsPy.ReqPackage.mk "a" none) (List.Mem.head _) rfl

/-! ## C6 — exclude-only filtering -/

theorem key_entry_unique (g : ModelsPy.PackageDAG)
    (hnd : (ModelsPy.keyStrings g).Nodup)
    {p q : ModelsPy.DistPackage} {rs qs : List ModelsPy.ReqPackage}
    (hp : (p, rs) ∈ g) (hq : (q, qs) ∈ g) (hk : p.key = q.key) :
    p = q ∧ rs = qs := by
  have h1 := find?_entry_of_mem g hnd hp
  have h2 := find?_entry_of_mem g hnd hq
  rw [hk] at h1
  rw [h1] at h2
  have h3 := Option.some.inj h2
  exact ⟨congrArg Prod.fst h3, congrArg Prod.snd h3⟩

theorem get_children_of_mem (g : ModelsPy.PackageDAG)
    (hnd : (ModelsPy.keyStrings g).Nodup)
    {p : ModelsPy.DistPackage} {rs : List ModelsPy.ReqPackage}
    (h : (p, rs) ∈ g) : g.get_children p.key = rs := by
  unfold ModelsPy.PackageDAG.get_children
  rw [find?_entry_of_mem g hnd h]
  rfl

theorem setEntry_preserves (g : ModelsPy.PackageDAG)
    (hnd : (ModelsPy.keyStrings g).Nodup) (excL : List String)
    {m : ModelsPy.PackageDAG}
    (hm : ∀ e ∈ m, ∃ cs, (e.1, cs) ∈ g ∧ ModelsPy.anyPatternMatch excL e.1.key = false ∧
        e.2 = cs.filter (fun c => !ModelsPy.anyPatternMatch excL c.key))
    {n : ModelsPy.DistPackage} {cs0 : List ModelsPy.ReqPackage}
    (hn : (n, cs0) ∈ g) :
    (∀ e ∈ m, e ∈ ModelsPy.setEntry m n
        (cs0.filter (fun c => !ModelsPy.anyPatternMatch excL c.key))) ∧
    ((n, cs0.filter (fun c => !ModelsPy.anyPatternMatch excL c.key)) ∈ ModelsPy.setEntry m n
        (cs0.filter (fun c => !ModelsPy.anyPatternMatch excL c.key))) ∧
    (∀ e ∈ ModelsPy.setEntry m n
        (cs0.filter (fun c => !ModelsPy.anyPatternMatch excL c.key)),
        e ∈ m ∨ e = (n, cs0.filter (fun c => !ModelsPy.anyPatternMatch excL c.key))) := by
  induction m with
  | nil =>
    refine ⟨by intro e he; simp at he, ?_, ?_⟩
    · rw [ModelsPy.setEntry]
      exact List.mem_singleton.mpr rfl
    · intro e he
      rw [ModelsPy.setEntry] at he
      exact Or.inr (List.mem_singleton.mp he)
  | cons e0 rest ih =>
    have hm0 := hm e0 (List.mem_cons_self _ _)
    have hmrest : ∀ e ∈ rest, ∃ cs, (e.1, cs) ∈ g ∧
        ModelsPy.anyPatternMatch excL e.1.key = false ∧
        e.2 = cs.filter (fun c => !ModelsPy.anyPatternMatch excL c.key) :=
      fun e he => hm e (List.mem_cons_of_mem _ he)
    by_cases hk : (e0.1.key == n.key) = true
    · have hkeq : e0.1.key = n.key := by simpa using hk
      obtain ⟨cs', hcs'g, _, he02⟩ := hm0
      obtain ⟨heq1, heq2⟩ := key_entry_unique g hnd hcs'g hn hkeq
      have he0 : e0 = (n, cs0.filter (fun c => !ModelsPy.anyPatternMatch excL c.key)) := by
        have : e0 = (e0.1, e0.2) := rfl
        rw [this, he02, heq2, heq1]
      rw [ModelsPy.setEntry, if_pos hk]
      refine ⟨?_, ?_, ?_⟩
      · intro e he
        rcases List.mem_cons.mp he with rfl | he
        · rw [he0]
          exact List.mem_cons_self _ _
        · exact List.mem_cons_of_mem _ he
      · have : e0.1 = n := heq1
        rw [this]
        exact List.mem_cons_self _ _
      · intro e he
        rcases List.mem_cons.mp he with heq | he
        · right
          rw [heq, heq1]
        · exact Or.inl (List.mem_cons_of_mem _ he)
    · rw [ModelsPy.setEntry, if_neg hk]
      obtain ⟨ihp, ihs, ihsound⟩ := ih hmrest
      refine ⟨?_, List.mem_cons_of_mem _ ihs, ?_⟩
      · intro e he
        rcases List.mem_cons.mp he with rfl | he
        · exact List.mem_cons_self _ _
        · exact List.mem_cons_of_mem _ (ihp e he)
      · intro e he
        rcases List.mem_cons.mp he with rfl | he
        · exact Or.inl (List.mem_cons_self _ _)
        · rcases ihsound e he with h | h
          · exact Or.inl (List.mem_cons_of_mem _ h)
          · exact Or.inr h

theorem drain_step (g : ModelsPy.PackageDAG) (excL : List String)
    (hnd : (ModelsPy.keyStrings g).Nodup)
    (n : ModelsPy.DistPackage) (m : ModelsPy.PackageDAG) (seen : List String)
    (hn : ∃ cs, (n, cs) ∈ g ∧ ModelsPy.anyPatternMatch excL n.key = false)
    (hm : ∀ e ∈ m, ∃ cs, (e.1, cs) ∈ g ∧ ModelsPy.anyPatternMatch excL e.1.key = false ∧
        e.2 = cs.filter (fun c => !ModelsPy.anyPatternMatch excL c.key)) :
    (∀ p ∈ ((g.get_children n.key).filter
          (fun c => !ModelsPy.anyPatternMatch excL c.key)).filterMap
          (fun c => if (n.key :: seen).contains c.key then none
                    else g.get_node_as_parent c.key),
        ∃ cs, (p, cs) ∈ g ∧ ModelsPy.anyPatternMatch excL p.key = false) ∧
    (∀ e ∈ ModelsPy.setEntry m n ((g.get_children n.key).filter
          (fun c => !ModelsPy.anyPatternMatch excL c.key)),
        ∃ cs, (e.1, cs) ∈ g ∧ ModelsPy.anyPatternMatch excL e.1.key = false ∧
          e.2 = cs.filter (fun c => !ModelsPy.anyPatternMatch excL c.key)) ∧
    (∀ e ∈ m, e ∈ ModelsPy.setEntry m n ((g.get_children n.key).filter
          (fun c => !ModelsPy.anyPatternMatch excL c.key))) ∧
    ((n, (g.get_children n.key).filter (fun c => !ModelsPy.anyPatternMatch excL c.key))
        ∈ ModelsPy.setEntry m n ((g.get_children n.key).filter
          (fun c => !ModelsPy.anyPatternMatch excL c.key))) := by
  obtain ⟨cs0, hcs0, hexn⟩ := hn
  have hch : g.get_children n.key = cs0 := get_children_of_mem g hnd hcs0
  obtain ⟨hpres, hself, hsound⟩ := setEntry_preserves g hnd excL hm hcs0
  rw [hch]
  refine ⟨?_, ?_, hpres, hself⟩
  · intro p hp
    rcases List.mem_filterMap.mp hp with ⟨c, hc, heq⟩
    by_cases hseen : ((n.key :: seen).contains c.key) = true
    · rw [if_pos hseen] at heq
      cases heq
    · rw [if_neg hseen] at heq
      unfold ModelsPy.PackageDAG.get_node_as_parent at heq
      rcases Option.map_eq_some'.mp heq with ⟨e', hfind, he'⟩
      have hmem := List.mem_of_find?_eq_some hfind
      have hkey : e'.1.key = c.key := by
        have := List.find?_some hfind
        simpa using this
      have hcex : ModelsPy.anyPatternMatch excL c.key = false := by
        have := (List.mem_filter.mp hc).2
        simpa using this
      refine ⟨e'.2, ?_, ?_⟩
      · rw [← he']
        exact hmem
      · rw [← he', hkey]
        exact hcex
  · intro e he
    rcases hsound e he with h | h
    · exact hm e h
    · rw [h]
      exact ⟨cs0, hcs0, hexn, rfl⟩

theorem drain_ok (g : ModelsPy.PackageDAG) (excL : List String)
    (hnd : (ModelsPy.keyStrings g).Nodup) :
    ∀ (fuel : Nat) (stack : List ModelsPy.DistPackage) (m : ModelsPy.PackageDAG)
      (seen : List String),
    (∀ n ∈ stack, ∃ cs, (n, cs) ∈ g ∧ ModelsPy.anyPatternMatch excL n.key = false) →
    (∀ e ∈ m, ∃ cs, (e.1, cs) ∈ g ∧ ModelsPy.anyPatternMatch excL e.1.key = false ∧
        e.2 = cs.filter (fun c => !ModelsPy.anyPatternMatch excL c.key)) →
    ((∀ e ∈ (ModelsPy.drain g excL fuel stack m seen).2.1,
        ∃ cs, (e.1, cs) ∈ g ∧ ModelsPy.anyPatternMatch excL e.1.key = false ∧
          e.2 = cs.filter (fun c => !ModelsPy.anyPatternMatch excL c.key)) ∧
     (∀ e ∈ m, e ∈ (ModelsPy.drain g excL fuel stack m seen).2.1) ∧
     (∀ n ∈ (ModelsPy.drain g excL fuel stack m seen).1,
        ∃ cs, (n, cs) ∈ g ∧ ModelsPy.anyPatternMatch excL n.key = false)) := by
  intro fuel
  induction fuel with
  | zero =>
    intro stack m seen hstack hm
    exact ⟨hm, fun e he => he, hstack⟩
  | succ fuel ih =>
    intro stack m seen hstack hm
    cases stack with
    | nil =>
      refine ⟨hm, fun e he => he, ?_⟩
      intro p hp
      simp [ModelsPy.drain] at hp
    | cons n rest =>
      have hstep : ModelsPy.drain g excL (fuel + 1) (n :: rest) m seen =
          ModelsPy.drain g excL fuel
            ((((g.get_children n.key).filter
                (fun c => !ModelsPy.anyPatternMatch excL c.key)).filterMap
                (fun c => if (n.key :: seen).contains c.key then none
                          else g.get_node_as_parent c.key)).reverse ++ rest)
            (ModelsPy.setEntry m n ((g.get_children n.key).filter
                (fun c => !ModelsPy.anyPatternMatch excL c.key)))
            (n.key :: seen) := rfl
      obtain ⟨hpushes, hm1, hpers, _⟩ :=
        drain_step g excL hnd n m seen (hstack n (List.mem_cons_self _ _)) hm
      have hstack1 : ∀ p ∈ (((g.get_children n.key).filter
            (fun c => !ModelsPy.anyPatternMatch excL c.key)).filterMap
            (fun c => if (n.key :: seen).contains c.key then none
                      else g.get_node_as_parent c.key)).reverse ++ rest,
          ∃ cs, (p, cs) ∈ g ∧ ModelsPy.anyPatternMatch excL p.key = false := by
        intro p hp
        rcases List.mem_append.mp hp with hp | hp
        · exact hpushes p (List.mem_reverse.mp hp)
        · exact hstack p (List.mem_cons_of_mem _ hp)
      obtain ⟨s1, s2, s3⟩ := ih _ _ (n.key :: seen) hstack1 hm1
      rw [hstep]
      exact ⟨s1, fun e he => s2 e (hpers e he), s3⟩

theorem drain_head (g : ModelsPy.PackageDAG) (excL : List String)
    (hnd : (ModelsPy.keyStrings g).Nodup)
    (fuel : Nat) (hf : 0 < fuel)
    (n : ModelsPy.DistPackage) (rest : List ModelsPy.DistPackage)
    (m : ModelsPy.PackageDAG) (seen : List String)
    (hstack : ∀ p ∈ n :: rest, ∃ cs, (p, cs) ∈ g ∧
        ModelsPy.anyPatternMatch excL p.key = false)
    (hm : ∀ e ∈ m, ∃ cs, (e.1, cs) ∈ g ∧ ModelsPy.anyPatternMatch excL e.1.key = false ∧
        e.2 = cs.filter (fun c => !ModelsPy.anyPatternMatch excL c.key)) :
    (n, (g.get_children n.key).filter (fun c => !ModelsPy.anyPatternMatch excL c.key))
      ∈ (ModelsPy.drain g excL fuel (n :: rest) m seen).2.1 := by
  obtain ⟨fuel', rfl⟩ : ∃ k, fuel = k + 1 := ⟨fuel - 1, by omega⟩
  have hstep : ModelsPy.drain g excL (fuel' + 1) (n :: rest) m seen =
      ModelsPy.drain g excL fuel'
        ((((g.get_children n.key).filter
            (fun c => !ModelsPy.anyPatternMatch excL c.key)).filterMap
            (fun c => if (n.key :: seen).contains c.key then none
                      else g.get_node_as_parent c.key)).reverse ++ rest)
        (ModelsPy.setEntry m n ((g.get_children n.key).filter
            (fun c => !ModelsPy.anyPatternMatch excL c.key)))
        (n.key :: seen) := rfl
  obtain ⟨hpushes, hm1, hpers, hselfm⟩ :=
    drain_step g excL hnd n m seen (hstack n (List.mem_cons_self _ _)) hm
  have hstack1 : ∀ p ∈ (((g.get_children n.key).filter
        (fun c => !ModelsPy.anyPatternMatch excL c.key)).filterMap
        (fun c => if (n.key :: seen).contains c.key then none
                  else g.get_node_as_parent c.key)).reverse ++ rest,
      ∃ cs, (p, cs) ∈ g ∧ ModelsPy.anyPatternMatch excL p.key = false := by
    intro p hp
    rcases List.mem_append.mp hp with hp | hp
    · exact hpushes p (List.mem_reverse.mp hp)
    · exact hstack p (List.mem_cons_of_mem _ hp)
  obtain ⟨_, s2, _⟩ := drain_ok g excL hnd fuel' _ _ (n.key :: seen) hstack1 hm1
  rw [hstep]
  exact s2 _ hselfm

theorem fuelBound_pos (g : ModelsPy.PackageDAG) : 0 < ModelsPy.fuelBound g := by
  unfold ModelsPy.fuelBound
  exact Nat.mul_pos (by omega) (by omega)

theorem filterOuter_ok (g : ModelsPy.PackageDAG) (excL : List String)
    (hnd : (ModelsPy.keyStrings g).Nodup) :
    ∀ (entries : List (ModelsPy.DistPackage × List ModelsPy.ReqPackage))
      (stack : List ModelsPy.DistPackage) (m : ModelsPy.PackageDAG) (seen : List String),
    (∀ e ∈ entries, e ∈ g) →
    (∀ n ∈ stack, ∃ cs, (n, cs) ∈ g ∧ ModelsPy.anyPatternMatch excL n.key = false) →
    (∀ e ∈ m, ∃ cs, (e.1, cs) ∈ g ∧ ModelsPy.anyPatternMatch excL e.1.key = false ∧
        e.2 = cs.filter (fun c => !ModelsPy.anyPatternMatch excL c.key)) →
    ((∀ e ∈ ModelsPy.filterOuter g none excL (ModelsPy.fuelBound g) entries stack m seen,
        ∃ cs, (e.1, cs) ∈ g ∧ ModelsPy.anyPatternMatch excL e.1.key = false ∧
          e.2 = cs.filter (fun c => !ModelsPy.anyPatternMatch excL c.key)) ∧
     (∀ e ∈ m, e ∈ ModelsPy.filterOuter g none excL (ModelsPy.fuelBound g) entries stack m seen) ∧
     (∀ e ∈ entries, ModelsPy.anyPatternMatch excL e.1.key = false →
        (e.1, e.2.filter (fun c => !ModelsPy.anyPatternMatch excL c.key))
          ∈ ModelsPy.filterOuter g none excL (ModelsPy.fuelBound g) entries stack m seen)) := by
  intro entries
  induction entries with
  | nil =>
    intro stack m seen _ _ hm
    exact ⟨hm, fun e he => he, by intro e he; simp at he⟩
  | cons e rest ih =>
    intro stack m seen hent hstack hm
    have herest : ∀ x ∈ rest, x ∈ g := fun x hx => hent x (List.mem_cons_of_mem _ hx)
    by_cases hex : ModelsPy.anyPatternMatch excL e.1.key = true
    · have hstep : ModelsPy.filterOuter g none excL (ModelsPy.fuelBound g)
          (e :: rest) stack m seen
          = ModelsPy.filterOuter g none excL (ModelsPy.fuelBound g) rest stack m seen := by
        rw [ModelsPy.filterOuter, if_pos hex]
      rw [hstep]
      obtain ⟨f1, f2, f3⟩ := ih stack m seen herest hstack hm
      refine ⟨f1, f2, ?_⟩
      intro x hx hxex
      rcases List.mem_cons.mp hx with rfl | hx
      · rw [hex] at hxex
        cases hxex
      · exact f3 x hx hxex
    · have hexf : ModelsPy.anyPatternMatch excL e.1.key = false := by
        cases h : ModelsPy.anyPatternMatch excL e.1.key
        · rfl
        · exact absurd h hex
      have hstep : ModelsPy.filterOuter g none excL (ModelsPy.fuelBound g)
          (e :: rest) stack m seen
          = ModelsPy.filterOuter g none excL (ModelsPy.fuelBound g) rest
              (ModelsPy.drain g excL (ModelsPy.fuelBound g) (e.1 :: stack) m seen).1
              (ModelsPy.drain g excL (ModelsPy.fuelBound g) (e.1 :: stack) m seen).2.1
              (ModelsPy.drain g excL (ModelsPy.fuelBound g) (e.1 :: stack) m seen).2.2 := by
        rw [ModelsPy.filterOuter, if_neg hex]
        rfl
      have heg : (e.1, e.2) ∈ g := hent e (List.mem_cons_self _ _)
      have hstack1 : ∀ n ∈ e.1 :: stack,
          ∃ cs, (n, cs) ∈ g ∧ ModelsPy.anyPatternMatch excL n.key = false := by
        intro n hn
        rcases List.mem_cons.mp hn with rfl | hn
        · exact ⟨e.2, heg, hexf⟩
        · exact hstack n hn
      obtain ⟨s1, s2, s3⟩ :=
        drain_ok g excL hnd (ModelsPy.fuelBound g) (e.1 :: stack) m seen hstack1 hm
      have hhead := drain_head g excL hnd (ModelsPy.fuelBound g) (fuelBound_pos g)
        e.1 stack m seen hstack1 hm
      rw [get_children_of_mem g hnd heg] at hhead
      obtain ⟨f1, f2, f3⟩ := ih _ _ _ herest s3 s1
      rw [hstep]
      refine ⟨f1, fun x hx => f2 x (s2 x hx), ?_⟩
      intro x hx hxex
      rcases List.mem_cons.mp hx with rfl | hx
      · exact f2 _ hhead
      · exact f3 x hx hxex

/-- C6 counterexample: the specification's own example — filtering
`{a: [b, c], b: [d], c: [d, e], d: [e], e: [], f: [b], g: [e, f]}` with
`exclude = {"d"}`.  The node `d` is a top-level node matching the exclude
pattern, yet the result has no `d` key at all (the claim says it may remain
as a childless key); every other node survives with `d` pruned from its
children. -/
theorem c6_counterexample :
    (ModelsPy.PackageDAG.filter_nodes
        (ModelsPy.PackageDAG.from_pkgs
          [("a", ["b", "c"]), ("b", ["d"]), ("c", ["d", "e"]), ("d", ["e"]),
           ("e", []), ("f", ["b"]), ("g", ["e", "f"])])
        none (some ["d"])).map
      (fun mm => mm.map (fun e => (e.1.key, e.2.map ModelsPy.ReqPackage.key)))
      = some [("a", ["b", "c"]), ("c", ["e"]), ("e", []), ("b", []),
              ("f", ["b"]), ("g", ["e", "f"])] := by
  rfl

/-- C6 (amended): with `include = None` and an exclude set, every node of the
graph is visited: every non-excluded node appears in the output with exactly
its original children minus those matching an exclude pattern, and the output
contains nothing else — in particular a node matching an exclude pattern
never appears as a key, even when it was a top-level node. -/
theorem c6_exclude_filters_all_nodes (g : ModelsPy.PackageDAG) (ex : List String)
    (hnd : (ModelsPy.keyStrings g).Nodup) :
    ∃ m', ModelsPy.PackageDAG.filter_nodes g none (some ex) = some m' ∧
      (∀ e ∈ g, ModelsPy.anyPatternMatch (ex.map lowerStr) e.1.key = false →
          (e.1, e.2.filter (fun c => !ModelsPy.anyPatternMatch (ex.map lowerStr) c.key)) ∈ m') ∧
      (∀ e ∈ m', ∃ cs, (e.1, cs) ∈ g ∧
          ModelsPy.anyPatternMatch (ex.map lowerStr) e.1.key = false ∧
          e.2 = cs.filter (fun c => !ModelsPy.anyPatternMatch (ex.map lowerStr) c.key)) := by
  obtain ⟨f1, _, f3⟩ := filterOuter_ok g (ex.map lowerStr) hnd g [] [] []
    (fun e he => he) (by intro n hn; simp at hn) (by intro e he; simp at he)
  exact ⟨ModelsPy.filterOuter g none (ex.map lowerStr) (ModelsPy.fuelBound g) g [] [] [],
    rfl, f3, f1⟩

/-- Witness for the amended C6 theorem at a concrete graph with a top-level
excluded node. -/
theorem c6_exclude_filters_all_nodes_witness :
    ∃ m', ModelsPy.PackageDAG.filter_nodes
        (ModelsPy.PackageDAG.from_pkgs [("a", ["d"]), ("d", [])]) none (some ["d"])
        = some m' ∧
      (∀ e ∈ ModelsPy.PackageDAG.from_pkgs [("a", ["d"]), ("d", [])],
          ModelsPy.anyPatternMatch (["d"].map lowerStr) e.1.key = false →
          (e.1, e.2.filter (fun c => !ModelsPy.anyPatternMatch (["d"].map lowerStr) c.key)) ∈ m') ∧
      (∀ e ∈ m', ∃ cs, (e.1, cs) ∈ ModelsPy.PackageDAG.from_pkgs [("a", ["d"]), ("d", [])] ∧
          ModelsPy.anyPatternMatch (["d"].map lowerStr) e.1.key = false ∧
          e.2 = cs.filter (fun c => !ModelsPy.anyPatternMatch (["d"].map lowerStr) c.key)) :=
  c6_exclude_filters_all_nodes
    (ModelsPy.PackageDAG.from_pkgs [("a", ["d"]), ("d", [])]) ["d"] (by decide)

/-! ## C1 — double reversal -/

theorem as_parent_of_key (d : ModelsPy.DistPackage) (r : Option ModelsPy.ReqPackage) :
    (d.as_parent_of r).key = d.key := by
  cases d with
  | mk k rq =>
    cases r with
    | none => cases rq <;> rfl
    | some r0 => cases rq <;> rfl

theorem as_requirement_key (d : ModelsPy.DistPackage) :
    (d.as_requirement).key = d.key := rfl

theorem as_requirement_dist (d : ModelsPy.DistPackage) :
    (d.as_requirement).dist = some d := rfl

theorem contains_false_iff (l : List String) (a : String) :
    l.contains a = false ↔ a ∉ l := by
  constructor
  · intro h hm
    have he : l.contains a = true := List.elem_eq_true_of_mem hm
    rw [he] at h
    cases h
  · intro h
    cases hc : l.contains a
    · rfl
    · exact absurd (List.mem_of_elem_eq_true hc) h

theorem mem_keyStrings (g : ModelsPy.PackageDAG) (s : String) :
    s ∈ ModelsPy.keyStrings g ↔ ∃ e ∈ g, e.1.key = s := by
  simp [ModelsPy.keyStrings]

theorem mem_revKeyStrings (rm : ModelsPy.ReversedPackageDAG) (s : String) :
    s ∈ ModelsPy.revKeyStrings rm ↔ ∃ e ∈ rm, e.1.key = s := by
  simp [ModelsPy.revKeyStrings]

theorem mem_childKeyList (m : ModelsPy.PackageDAG) (s : String) :
    s ∈ ModelsPy.childKeyList m ↔ ∃ e ∈ m, ∃ v ∈ e.2, v.key = s := by
  simp only [ModelsPy.childKeyList, List.mem_map, List.mem_bind]
  constructor
  · rintro ⟨v, ⟨e, he, hv⟩, hk⟩
    exact ⟨e, he, v, hv, hk⟩
  · rintro ⟨e, he, v, hv, hk⟩
    exact ⟨v, ⟨e, he, hv⟩, hk⟩

theorem mem_revChildKeyList (rm : ModelsPy.ReversedPackageDAG) (s : String) :
    s ∈ ModelsPy.revChildKeyList rm ↔ ∃ e ∈ rm, ∃ v ∈ e.2, v.key = s := by
  simp only [ModelsPy.revChildKeyList, List.mem_map, List.mem_bind]
  constructor
  · rintro ⟨v, ⟨e, he, hv⟩, hk⟩
    exact ⟨e, he, v, hv, hk⟩
  · rintro ⟨e, he, v, hv, hk⟩
    exact ⟨v, ⟨e, he, hv⟩, hk⟩

theorem mem_edgePairs (g : ModelsPy.PackageDAG) (p : String × String) :
    p ∈ ModelsPy.edgePairs g ↔ ∃ e ∈ g, e.1.key = p.1 ∧ ∃ v ∈ e.2, v.key = p.2 := by
  simp only [ModelsPy.edgePairs, List.mem_bind, List.mem_map]
  constructor
  · rintro ⟨e, he, v, hv, hpv⟩
    exact ⟨e, he, congrArg Prod.fst hpv, v, hv, congrArg Prod.snd hpv⟩
  · rintro ⟨e, he, h1, v, hv, h2⟩
    exact ⟨e, he, v, hv, by rw [h1, h2]⟩

theorem mem_revEdgePairs (rm : ModelsPy.ReversedPackageDAG) (p : String × String) :
    p ∈ ModelsPy.revEdgePairs rm ↔ ∃ e ∈ rm, e.1.key = p.1 ∧ ∃ v ∈ e.2, v.key = p.2 := by
  simp only [ModelsPy.revEdgePairs, List.mem_bind, List.mem_map]
  constructor
  · rintro ⟨e, he, v, hv, hpv⟩
    exact ⟨e, he, congrArg Prod.fst hpv, v, hv, congrArg Prod.snd hpv⟩
  · rintro ⟨e, he, h1, v, hv, h2⟩
    exact ⟨e, he, v, hv, by rw [h1, h2]⟩

theorem addEdgeRev_pairs (acc : ModelsPy.ReversedPackageDAG)
    (v : ModelsPy.ReqPackage) (x : ModelsPy.DistPackage) (p : String × String) :
    p ∈ ModelsPy.revEdgePairs (ModelsPy.addEdgeRev acc v x)
      ↔ p ∈ ModelsPy.revEdgePairs acc ∨ p = (v.key, x.key) := by
  induction acc with
  | nil =>
    rw [show ModelsPy.addEdgeRev [] v x = [(v, [x])] from rfl]
    rw [show ModelsPy.revEdgePairs [(v, [x])] = [(v.key, x.key)] from rfl]
    rw [show ModelsPy.revEdgePairs ([] : ModelsPy.ReversedPackageDAG) = [] from rfl]
    simp
  | cons e rest ih =>
    by_cases hk : (e.1.key == v.key) = true
    · have hkeq : e.1.key = v.key := by simpa using hk
      rw [ModelsPy.addEdgeRev, if_pos hk]
      rw [show ModelsPy.revEdgePairs ((e.1, e.2 ++ [x]) :: rest)
          = (e.2 ++ [x]).map (fun w => (e.1.key, w.key)) ++ ModelsPy.revEdgePairs rest from rfl]
      rw [show ModelsPy.revEdgePairs (e :: rest)
          = e.2.map (fun w => (e.1.key, w.key)) ++ ModelsPy.revEdgePairs rest from rfl]
      rw [List.map_append]
      simp only [List.mem_append, List.map_cons, List.map_nil, List.mem_singleton, hkeq]
      tauto
    · rw [ModelsPy.addEdgeRev, if_neg hk]
      rw [show ModelsPy.revEdgePairs (e :: ModelsPy.addEdgeRev rest v x)
          = e.2.map (fun w => (e.1.key, w.key))
            ++ ModelsPy.revEdgePairs (ModelsPy.addEdgeRev rest v x) from rfl]
      rw [show ModelsPy.revEdgePairs (e :: rest)
          = e.2.map (fun w => (e.1.key, w.key)) ++ ModelsPy.revEdgePairs rest from rfl]
      simp only [List.mem_append]
      rw [ih]
      tauto

theorem addEdgeRev_keys (acc : ModelsPy.ReversedPackageDAG)
    (v : ModelsPy.ReqPackage) (x : ModelsPy.DistPackage) (s : String) :
    s ∈ ModelsPy.revKeyStrings (ModelsPy.addEdgeRev acc v x)
      ↔ s ∈ ModelsPy.revKeyStrings acc ∨ s = v.key := by
  induction acc with
  | nil =>
    rw [show ModelsPy.addEdgeRev [] v x = [(v, [x])] from rfl]
    rw [show ModelsPy.revKeyStrings [(v, [x])] = [v.key] from rfl]
    rw [show ModelsPy.revKeyStrings ([] : ModelsPy.ReversedPackageDAG) = [] from rfl]
    simp
  | cons e rest ih =>
    by_cases hk : (e.1.key == v.key) = true
    · have hkeq : e.1.key = v.key := by simpa using hk
      rw [ModelsPy.addEdgeRev, if_pos hk]
      rw [show ModelsPy.revKeyStrings ((e.1, e.2 ++ [x]) :: rest)
          = e.1.key :: ModelsPy.revKeyStrings rest from rfl]
      rw [show ModelsPy.revKeyStrings (e :: rest)
          = e.1.key :: ModelsPy.revKeyStrings rest from rfl]
      simp only [List.mem_cons, hkeq]
      tauto
    · rw [ModelsPy.addEdgeRev, if_neg hk]
      rw [show ModelsPy.revKeyStrings (e :: ModelsPy.addEdgeRev rest v x)
          = e.1.key :: ModelsPy.revKeyStrings (ModelsPy.addEdgeRev rest v x) from rfl]
      rw [show ModelsPy.revKeyStrings (e :: rest)
          = e.1.key :: ModelsPy.revKeyStrings rest from rfl]
      simp only [List.mem_cons]
      rw [ih]
      tauto

theorem addEdgeRev_keyObjs (acc : ModelsPy.ReversedPackageDAG)
    (v : ModelsPy.ReqPackage) (x : ModelsPy.DistPackage) :
    ∀ q ∈ (ModelsPy.addEdgeRev acc v x).map Prod.fst,
      q ∈ acc.map Prod.fst ∨ q = v := by
  induction acc with
  | nil =>
    intro q hq
    simp [ModelsPy.addEdgeRev] at hq
    exact Or.inr hq
  | cons e rest ih =>
    intro q hq
    by_cases hk : (e.1.key == v.key) = true
    · rw [ModelsPy.addEdgeRev, if_pos hk] at hq
      rcases List.mem_cons.mp hq with rfl | hq
      · exact Or.inl (List.mem_cons_self _ _)
      · exact Or.inl (List.mem_cons_of_mem _ hq)
    · rw [ModelsPy.addEdgeRev, if_neg hk] at hq
      rcases List.mem_cons.mp hq with rfl | hq
      · exact Or.inl (List.mem_cons_self _ _)
      · rcases ih q hq with h | h
        · exact Or.inl (List.mem_cons_of_mem _ h)
        · exact Or.inr h

theorem revEdgePairs_append (l1 l2 : ModelsPy.ReversedPackageDAG) :
    ModelsPy.revEdgePairs (l1 ++ l2)
      = ModelsPy.revEdgePairs l1 ++ ModelsPy.revEdgePairs l2 := by
  simp [ModelsPy.revEdgePairs]

theorem revKeyStrings_append (l1 l2 : ModelsPy.ReversedPackageDAG) :
    ModelsPy.revKeyStrings (l1 ++ l2)
      = ModelsPy.revKeyStrings l1 ++ ModelsPy.revKeyStrings l2 := by
  simp [ModelsPy.revKeyStrings]

theorem edgeFoldRev_pairs (k : ModelsPy.DistPackage) (vs : List ModelsPy.ReqPackage) :
    ∀ (acc : ModelsPy.ReversedPackageDAG) (p : String × String),
    p ∈ ModelsPy.revEdgePairs
        (vs.foldl (fun a v => ModelsPy.addEdgeRev a v (k.as_parent_of (some v))) acc)
      ↔ p ∈ ModelsPy.revEdgePairs acc ∨ ∃ v ∈ vs, p = (v.key, k.key) := by
  induction vs with
  | nil => intro acc p; simp
  | cons v vrest ih =>
    intro acc p
    rw [List.foldl_cons, ih, addEdgeRev_pairs, as_parent_of_key]
    constructor
    · rintro ((h | h) | h)
      · exact Or.inl h
      · exact Or.inr ⟨v, List.mem_cons_self _ _, h⟩
      · rcases h with ⟨w, hw, hp⟩
        exact Or.inr ⟨w, List.mem_cons_of_mem _ hw, hp⟩
    · rintro (h | ⟨w, hw, hp⟩)
      · exact Or.inl (Or.inl h)
      · rcases List.mem_cons.mp hw with rfl | hw
        · exact Or.inl (Or.inr hp)
        · exact Or.inr ⟨w, hw, hp⟩

theorem edgeFoldRev_keys (k : ModelsPy.DistPackage) (vs : List ModelsPy.ReqPackage) :
    ∀ (acc : ModelsPy.ReversedPackageDAG) (s : String),
    s ∈ ModelsPy.revKeyStrings
        (vs.foldl (fun a v => ModelsPy.addEdgeRev a v (k.as_parent_of (some v))) acc)
      ↔ s ∈ ModelsPy.revKeyStrings acc ∨ ∃ v ∈ vs, v.key = s := by
  induction vs with
  | nil => intro acc s; simp
  | cons v vrest ih =>
    intro acc s
    rw [List.foldl_cons, ih, addEdgeRev_keys]
    constructor
    · rintro ((h | h) | h)
      · exact Or.inl h
      · exact Or.inr ⟨v, List.mem_cons_self _ _, h.symm⟩
      · rcases h with ⟨w, hw, hp⟩
        exact Or.inr ⟨w, List.mem_cons_of_mem _ hw, hp⟩
    · rintro (h | ⟨w, hw, hp⟩)
      · exact Or.inl (Or.inl h)
      · rcases List.mem_cons.mp hw with rfl | hw
        · exact Or.inl (Or.inr hp.symm)
        · exact Or.inr ⟨w, hw, hp⟩

theorem edgeFoldRev_keyObjs (k : ModelsPy.DistPackage) (vs : List ModelsPy.ReqPackage) :
    ∀ (acc : ModelsPy.ReversedPackageDAG) (q : ModelsPy.ReqPackage),
    q ∈ (vs.foldl (fun a v => ModelsPy.addEdgeRev a v (k.as_parent_of (some v))) acc).map
        Prod.fst →
      q ∈ acc.map Prod.fst ∨ q ∈ vs := by
  induction vs with
  | nil => intro acc q hq; exact Or.inl hq
  | cons v vrest ih =>
    intro acc q hq
    rw [List.foldl_cons] at hq
    rcases ih _ q hq with h | h
    · rcases addEdgeRev_keyObjs acc v _ q h with h | h
      · exact Or.inl h
      · exact Or.inr (by rw [h]; exact List.mem_cons_self _ _)
    · exact Or.inr (List.mem_cons_of_mem _ h)

theorem revStep_pairs (ck : List String) (acc : ModelsPy.ReversedPackageDAG)
    (e : ModelsPy.DistPackage × List ModelsPy.ReqPackage) (p : String × String) :
    p ∈ ModelsPy.revEdgePairs (ModelsPy.revStep ck acc e)
      ↔ p ∈ ModelsPy.revEdgePairs acc ∨ ∃ v ∈ e.2, p = (v.key, e.1.key) := by
  unfold ModelsPy.revStep
  by_cases hc : (ck.contains e.1.key) = true
  · rw [if_pos hc]
    exact edgeFoldRev_pairs e.1 e.2 acc p
  · rw [if_neg hc]
    rw [revEdgePairs_append]
    rw [show ModelsPy.revEdgePairs [(e.1.as_requirement, [])] = [] from rfl]
    rw [List.append_nil]
    exact edgeFoldRev_pairs e.1 e.2 acc p

theorem revStep_keys (ck : List String) (acc : ModelsPy.ReversedPackageDAG)
    (e : ModelsPy.DistPackage × List ModelsPy.ReqPackage) (s : String) :
    s ∈ ModelsPy.revKeyStrings (ModelsPy.revStep ck acc e)
      ↔ s ∈ ModelsPy.revKeyStrings acc ∨ (∃ v ∈ e.2, v.key = s)
        ∨ (e.1.key = s ∧ ck.contains e.1.key = false) := by
  unfold ModelsPy.revStep
  by_cases hc : (ck.contains e.1.key) = true
  · rw [if_pos hc]
    rw [edgeFoldRev_keys]
    constructor
    · rintro (h | h)
      · exact Or.inl h
      · exact Or.inr (Or.inl h)
    · rintro (h | h | ⟨_, hcf⟩)
      · exact Or.inl h
      · exact Or.inr h
      · rw [hc] at hcf
        cases hcf
  · rw [if_neg hc]
    rw [revKeyStrings_append]
    rw [show ModelsPy.revKeyStrings [(e.1.as_requirement, [])] = [e.1.key] from rfl]
    rw [List.mem_append, edgeFoldRev_keys, List.mem_singleton]
    have hcf : ck.contains e.1.key = false := by
      cases h : ck.contains e.1.key
      · rfl
      · exact absurd h hc
    constructor
    · rintro ((h | h) | h)
      · exact Or.inl h
      · exact Or.inr (Or.inl h)
      · exact Or.inr (Or.inr ⟨h.symm, hcf⟩)
    · rintro (h | h | ⟨hk, _⟩)
      · exact Or.inl (Or.inl h)
      · exact Or.inl (Or.inr h)
      · exact Or.inr hk.symm

theorem revStep_keyObjs (ck : List String) (acc : ModelsPy.ReversedPackageDAG)
    (e : ModelsPy.DistPackage × List ModelsPy.ReqPackage) (q : ModelsPy.ReqPackage) :
    q ∈ (ModelsPy.revStep ck acc e).map Prod.fst →
      q ∈ acc.map Prod.fst ∨ q ∈ e.2 ∨ q = e.1.as_requirement := by
  unfold ModelsPy.revStep
  by_cases hc : (ck.contains e.1.key) = true
  · rw [if_pos hc]
    intro hq
    rcases edgeFoldRev_keyObjs e.1 e.2 acc q hq with h | h
    · exact Or.inl h
    · exact Or.inr (Or.inl h)
  · rw [if_neg hc]
    intro hq
    rw [List.map_append, List.mem_append] at hq
    rcases hq with hq | hq
    · rcases edgeFoldRev_keyObjs e.1 e.2 acc q hq with h | h
      · exact Or.inl h
      · exact Or.inr (Or.inl h)
    · rcases List.mem_singleton.mp hq with rfl
      exact Or.inr (Or.inr rfl)

theorem reverseFold_pairs (ck : List String)
    (l : List (ModelsPy.DistPackage × List ModelsPy.ReqPackage)) :
    ∀ (acc : ModelsPy.ReversedPackageDAG) (p : String × String),
    p ∈ ModelsPy.revEdgePairs (l.foldl (ModelsPy.revStep ck) acc)
      ↔ p ∈ ModelsPy.revEdgePairs acc ∨ ∃ e ∈ l, ∃ v ∈ e.2, p = (v.key, e.1.key) := by
  induction l with
  | nil => intro acc p; simp
  | cons e rest ih =>
    intro acc p
    rw [List.foldl_cons, ih, revStep_pairs]
    constructor
    · rintro ((h | h) | h)
      · exact Or.inl h
      · exact Or.inr ⟨e, List.mem_cons_self _ _, h⟩
      · rcases h with ⟨e1, he1, hv⟩
        exact Or.inr ⟨e1, List.mem_cons_of_mem _ he1, hv⟩
    · rintro (h | ⟨e1, he1, hv⟩)
      · exact Or.inl (Or.inl h)
      · rcases List.mem_cons.mp he1 with rfl | he1
        · exact Or.inl (Or.inr hv)
        · exact Or.inr ⟨e1, he1, hv⟩

theorem reverseFold_keys (ck : List String)
    (l : List (ModelsPy.DistPackage × List ModelsPy.ReqPackage)) :
    ∀ (acc : ModelsPy.ReversedPackageDAG) (s : String),
    s ∈ ModelsPy.revKeyStrings (l.foldl (ModelsPy.revStep ck) acc)
      ↔ s ∈ ModelsPy.revKeyStrings acc ∨ ∃ e ∈ l, ((∃ v ∈ e.2, v.key = s)
          ∨ (e.1.key = s ∧ ck.contains e.1.key = false)) := by
  induction l with
  | nil => intro acc s; simp
  | cons e rest ih =>
    intro acc s
    rw [List.foldl_cons, ih, revStep_keys]
    constructor
    · rintro ((h | h | h) | h)
      · exact Or.inl h
      · exact Or.inr ⟨e, List.mem_cons_self _ _, Or.inl h⟩
      · exact Or.inr ⟨e, List.mem_cons_self _ _, Or.inr h⟩
      · rcases h with ⟨e1, he1, hv⟩
        exact Or.inr ⟨e1, List.mem_cons_of_mem _ he1, hv⟩
    · rintro (h | ⟨e1, he1, hv⟩)
      · exact Or.inl (Or.inl h)
      · rcases List.mem_cons.mp he1 with rfl | he1
        · rcases hv with hv | hv
          · exact Or.inl (Or.inr (Or.inl hv))
          · exact Or.inl (Or.inr (Or.inr hv))
        · exact Or.inr ⟨e1, he1, hv⟩

theorem reverseFold_keyObjs (ck : List String)
    (l : List (ModelsPy.DistPackage × List ModelsPy.ReqPackage)) :
    ∀ (acc : ModelsPy.ReversedPackageDAG) (q : ModelsPy.ReqPackage),
    q ∈ (l.foldl (ModelsPy.revStep ck) acc).map Prod.fst →
      q ∈ acc.map Prod.fst ∨ (∃ e ∈ l, q ∈ e.2) ∨ (∃ e ∈ l, q = e.1.as_requirement) := by
  induction l with
  | nil => intro acc q hq; exact Or.inl hq
  | cons e rest ih =>
    intro acc q hq
    rw [List.foldl_cons] at hq
    rcases ih _ q hq with h | h | h
    · rcases revStep_keyObjs ck acc e q h with h | h | h
      · exact Or.inl h
      · exact Or.inr (Or.inl ⟨e, List.mem_cons_self _ _, h⟩)
      · exact Or.inr (Or.inr ⟨e, List.mem_cons_self _ _, h⟩)
    · rcases h with ⟨e1, he1, hv⟩
      exact Or.inr (Or.inl ⟨e1, List.mem_cons_of_mem _ he1, hv⟩)
    · rcases h with ⟨e1, he1, hv⟩
      exact Or.inr (Or.inr ⟨e1, List.mem_cons_of_mem _ he1, hv⟩)

theorem reverse_pairs (m : ModelsPy.PackageDAG) (p : String × String) :
    p ∈ ModelsPy.revEdgePairs (ModelsPy.PackageDAG.reverse m)
      ↔ (p.2, p.1) ∈ ModelsPy.edgePairs m := by
  unfold ModelsPy.PackageDAG.reverse
  rw [reverseFold_pairs]
  rw [show ModelsPy.revEdgePairs ([] : ModelsPy.ReversedPackageDAG) = [] from rfl]
  simp only [List.not_mem_nil, false_or]
  rw [mem_edgePairs]
  constructor
  · rintro ⟨e, he, v, hv, hp⟩
    exact ⟨e, he, (congrArg Prod.snd hp).symm, v, hv, (congrArg Prod.fst hp).symm⟩
  · rintro ⟨e, he, h1, v, hv, h2⟩
    exact ⟨e, he, v, hv, by rw [h2, h1]⟩

theorem reverse_keys (m : ModelsPy.PackageDAG) (s : String) :
    s ∈ ModelsPy.revKeyStrings (ModelsPy.PackageDAG.reverse m)
      ↔ s ∈ ModelsPy.childKeyList m
        ∨ (s ∈ ModelsPy.keyStrings m ∧ s ∉ ModelsPy.childKeyList m) := by
  unfold ModelsPy.PackageDAG.reverse
  rw [reverseFold_keys]
  rw [show ModelsPy.revKeyStrings ([] : ModelsPy.ReversedPackageDAG) = [] from rfl]
  simp only [List.not_mem_nil, false_or]
  constructor
  · rintro ⟨e, he, h | ⟨hk, hcf⟩⟩
    · exact Or.inl ((mem_childKeyList m s).mpr ⟨e, he, h⟩)
    · right
      refine ⟨(mem_keyStrings m s).mpr ⟨e, he, hk⟩, ?_⟩
      rw [← hk]
      exact (contains_false_iff _ _).mp hcf
  · rintro (h | ⟨hks, hnc⟩)
    · rcases (mem_childKeyList m s).mp h with ⟨e, he, v, hv, hk⟩
      exact ⟨e, he, Or.inl ⟨v, hv, hk⟩⟩
    · rcases (mem_keyStrings m s).mp hks with ⟨e, he, hk⟩
      refine ⟨e, he, Or.inr ⟨hk, ?_⟩⟩
      rw [hk]
      exact (contains_false_iff _ _).mpr hnc

theorem reverse_keyObjs (m : ModelsPy.PackageDAG) :
    ∀ q ∈ (ModelsPy.PackageDAG.reverse m).map Prod.fst,
      (∃ e ∈ m, q ∈ e.2) ∨ (∃ e ∈ m, q = e.1.as_requirement) := by
  intro q hq
  unfold ModelsPy.PackageDAG.reverse at hq
  rcases reverseFold_keyObjs (ModelsPy.childKeyList m) m [] q hq with h | h | h
  · simp at h
  · exact Or.inl h
  · exact Or.inr h

theorem addEdgeFwd_pairs (acc : ModelsPy.PackageDAG)
    (v : ModelsPy.DistPackage) (k : ModelsPy.ReqPackage) (p : String × String) :
    p ∈ ModelsPy.edgePairs (ModelsPy.addEdgeFwd acc v k)
      ↔ p ∈ ModelsPy.edgePairs acc ∨ p = (v.key, k.key) := by
  induction acc with
  | nil =>
    rw [show ModelsPy.addEdgeFwd [] v k = [(v.as_parent_of none, [k])] from rfl]
    rw [show ModelsPy.edgePairs [(v.as_parent_of none, [k])]
        = [((v.as_parent_of none).key, k.key)] from rfl]
    rw [show ModelsPy.edgePairs ([] : ModelsPy.PackageDAG) = [] from rfl]
    rw [as_parent_of_key]
    simp
  | cons e rest ih =>
    by_cases hk : (e.1.key == v.key) = true
    · have hkeq : e.1.key = v.key := by simpa using hk
      rw [ModelsPy.addEdgeFwd, if_pos hk]
      rw [show ModelsPy.edgePairs ((e.1, e.2 ++ [k]) :: rest)
          = (e.2 ++ [k]).map (fun w => (e.1.key, w.key)) ++ ModelsPy.edgePairs rest from rfl]
      rw [show ModelsPy.edgePairs (e :: rest)
          = e.2.map (fun w => (e.1.key, w.key)) ++ ModelsPy.edgePairs rest from rfl]
      rw [List.map_append]
      simp only [List.mem_append, List.map_cons, List.map_nil, List.mem_singleton, hkeq]
      tauto
    · rw [ModelsPy.addEdgeFwd, if_neg hk]
      rw [show ModelsPy.edgePairs (e :: ModelsPy.addEdgeFwd rest v k)
          = e.2.map (fun w => (e.1.key, w.key))
            ++ ModelsPy.edgePairs (ModelsPy.addEdgeFwd rest v k) from rfl]
      rw [show ModelsPy.edgePairs (e :: rest)
          = e.2.map (fun w => (e.1.key, w.key)) ++ ModelsPy.edgePairs rest from rfl]
      simp only [List.mem_append]
      rw [ih]
      tauto

theorem addEdgeFwd_keys (acc : ModelsPy.PackageDAG)
    (v : ModelsPy.DistPackage) (k : ModelsPy.ReqPackage) (s : String) :
    s ∈ ModelsPy.keyStrings (ModelsPy.addEdgeFwd acc v k)
      ↔ s ∈ ModelsPy.keyStrings acc ∨ s = v.key := by
  induction acc with
  | nil =>
    rw [show ModelsPy.addEdgeFwd [] v k = [(v.as_parent_of none, [k])] from rfl]
    rw [show ModelsPy.keyStrings [(v.as_parent_of none, [k])]
        = [(v.as_parent_of none).key] from rfl]
    rw [show ModelsPy.keyStrings ([] : ModelsPy.PackageDAG) = [] from rfl]
    rw [as_parent_of_key]
    simp
  | cons e rest ih =>
    by_cases hk : (e.1.key == v.key) = true
    · have hkeq : e.1.key = v.key := by simpa using hk
      rw [ModelsPy.addEdgeFwd, if_pos hk]
      rw [show ModelsPy.keyStrings ((e.1, e.2 ++ [k]) :: rest)
          = e.1.key :: ModelsPy.keyStrings rest from rfl]
      rw [show ModelsPy.keyStrings (e :: rest)
          = e.1.key :: ModelsPy.keyStrings rest from rfl]
      simp only [List.mem_cons, hkeq]
      tauto
    · rw [ModelsPy.addEdgeFwd, if_neg hk]
      rw [show ModelsPy.keyStrings (e :: ModelsPy.addEdgeFwd rest v k)
          = e.1.key :: ModelsPy.keyStrings (ModelsPy.addEdgeFwd rest v k) from rfl]
      rw [show ModelsPy.keyStrings (e :: rest)
          = e.1.key :: ModelsPy.keyStrings rest from rfl]
      simp only [List.mem_cons]
      rw [ih]
      tauto

theorem edgeFoldFwd_pairs (k : ModelsPy.ReqPackage) (vs : List ModelsPy.DistPackage) :
    ∀ (acc : ModelsPy.PackageDAG) (p : String × String),
    p ∈ ModelsPy.edgePairs (vs.foldl (fun a v => ModelsPy.addEdgeFwd a v k) acc)
      ↔ p ∈ ModelsPy.edgePairs acc ∨ ∃ v ∈ vs, p = (v.key, k.key) := by
  induction vs with
  | nil => intro acc p; simp
  | cons v vrest ih =>
    intro acc p
    rw [List.foldl_cons, ih, addEdgeFwd_pairs]
    constructor
    · rintro ((h | h) | h)
      · exact Or.inl h
      · exact Or.inr ⟨v, List.mem_cons_self _ _, h⟩
      · rcases h with ⟨w, hw, hp⟩
        exact Or.inr ⟨w, List.mem_cons_of_mem _ hw, hp⟩
    · rintro (h | ⟨w, hw, hp⟩)
      · exact Or.inl (Or.inl h)
      · rcases List.mem_cons.mp hw with rfl | hw
        · exact Or.inl (Or.inr hp)
        · exact Or.inr ⟨w, hw, hp⟩

theorem edgeFoldFwd_keys (k : ModelsPy.ReqPackage) (vs : List ModelsPy.DistPackage) :
    ∀ (acc : ModelsPy.PackageDAG) (s : String),
    s ∈ ModelsPy.keyStrings (vs.foldl (fun a v => ModelsPy.addEdgeFwd a v k) acc)
      ↔ s ∈ ModelsPy.keyStrings acc ∨ ∃ v ∈ vs, v.key = s := by
  induction vs with
  | nil => intro acc s; simp
  | cons v vrest ih =>
    intro acc s
    rw [List.foldl_cons, ih, addEdgeFwd_keys]
    constructor
    · rintro ((h | h) | h)
      · exact Or.inl h
      · exact Or.inr ⟨v, List.mem_cons_self _ _, h.symm⟩
      · rcases h with ⟨w, hw, hp⟩
        exact Or.inr ⟨w, List.mem_cons_of_mem _ hw, hp⟩
    · rintro (h | ⟨w, hw, hp⟩)
      · exact Or.inl (Or.inl h)
      · rcases List.mem_cons.mp hw with rfl | hw
        · exact Or.inl (Or.inr hp.symm)
        · exact Or.inr ⟨w, hw, hp⟩

theorem keyStrings_append (l1 l2 : ModelsPy.PackageDAG) :
    ModelsPy.keyStrings (l1 ++ l2)
      = ModelsPy.keyStrings l1 ++ ModelsPy.keyStrings l2 := by
  simp [ModelsPy.keyStrings]

theorem edgePairs_append (l1 l2 : ModelsPy.PackageDAG) :
    ModelsPy.edgePairs (l1 ++ l2)
      = ModelsPy.edgePairs l1 ++ ModelsPy.edgePairs l2 := by
  simp [ModelsPy.edgePairs]

theorem rrevGo_ok (ck2 : List String) :
    ∀ (rm : ModelsPy.ReversedPackageDAG),
    (∀ e ∈ rm, ∃ d, e.1.dist = some d ∧ d.key = e.1.key) →
    ∀ acc : ModelsPy.PackageDAG,
    ∃ m2, ModelsPy.rrevGo ck2 acc rm = some m2 ∧
      (∀ s, s ∈ ModelsPy.keyStrings m2 ↔ s ∈ ModelsPy.keyStrings acc
          ∨ (∃ e ∈ rm, ∃ v ∈ e.2, v.key = s)
          ∨ (∃ e ∈ rm, e.1.key = s ∧ ck2.contains e.1.key = false)) ∧
      (∀ p, p ∈ ModelsPy.edgePairs m2 ↔ p ∈ ModelsPy.edgePairs acc
          ∨ ∃ e ∈ rm, ∃ v ∈ e.2, p = (v.key, e.1.key)) := by
  intro rm
  induction rm with
  | nil =>
    intro _ acc
    refine ⟨acc, rfl, ?_, ?_⟩
    · intro s
      simp
    · intro p
      simp
  | cons ekv rest ih =>
    intro hgood acc
    obtain ⟨k, vs⟩ := ekv
    have hgoodrest : ∀ e ∈ rest, ∃ d, e.1.dist = some d ∧ d.key = e.1.key :=
      fun e he => hgood e (List.mem_cons_of_mem _ he)
    by_cases hc : (ck2.contains k.key) = true
    · have hstep : ModelsPy.rrevGo ck2 acc ((k, vs) :: rest)
          = ModelsPy.rrevGo ck2
              (vs.foldl (fun a v => ModelsPy.addEdgeFwd a v k) acc) rest := by
        rw [ModelsPy.rrevGo, if_pos hc]
      obtain ⟨m2, heq, hkeys, hpairs⟩ :=
        ih hgoodrest (vs.foldl (fun a v => ModelsPy.addEdgeFwd a v k) acc)
      refine ⟨m2, by rw [hstep]; exact heq, ?_, ?_⟩
      · intro s
        rw [hkeys s, edgeFoldFwd_keys]
        constructor
        · rintro ((h | h) | h | h)
          · exact Or.inl h
          · rcases h with ⟨v, hv, hk⟩
            exact Or.inr (Or.inl ⟨(k, vs), List.mem_cons_self _ _, v, hv, hk⟩)
          · rcases h with ⟨e, he, hv⟩
            exact Or.inr (Or.inl ⟨e, List.mem_cons_of_mem _ he, hv⟩)
          · rcases h with ⟨e, he, hv⟩
            exact Or.inr (Or.inr ⟨e, List.mem_cons_of_mem _ he, hv⟩)
        · rintro (h | h | h)
          · exact Or.inl (Or.inl h)
          · rcases h with ⟨e, he, v, hv, hk⟩
            rcases List.mem_cons.mp he with rfl | he
            · exact Or.inl (Or.inr ⟨v, hv, hk⟩)
            · exact Or.inr (Or.inl ⟨e, he, v, hv, hk⟩)
          · rcases h with ⟨e, he, hv⟩
            rcases List.mem_cons.mp he with rfl | he
            · obtain ⟨hk1, hk2⟩ := hv
              have h' : ck2.contains ((k, vs) :
                  ModelsPy.ReqPackage × List ModelsPy.DistPackage).1.key = true := hc
              rw [h'] at hk2
              cases hk2
            · exact Or.inr (Or.inr ⟨e, he, hv⟩)
      · intro p
        rw [hpairs p, edgeFoldFwd_pairs]
        constructor
        · rintro ((h | h) | h)
          · exact Or.inl h
          · rcases h with ⟨v, hv, hk⟩
            exact Or.inr ⟨(k, vs), List.mem_cons_self _ _, v, hv, hk⟩
          · rcases h with ⟨e, he, hv⟩
            exact Or.inr ⟨e, List.mem_cons_of_mem _ he, hv⟩
        · rintro (h | h)
          · exact Or.inl (Or.inl h)
          · rcases h with ⟨e, he, v, hv, hk⟩
            rcases List.mem_cons.mp he with rfl | he
            · exact Or.inl (Or.inr ⟨v, hv, hk⟩)
            · exact Or.inr ⟨e, he, v, hv, hk⟩
    · have hcf : ck2.contains k.key = false := by
        cases h : ck2.contains k.key
        · rfl
        · exact absurd h hc
      obtain ⟨d, hd, hdk⟩ := hgood (k, vs) (List.mem_cons_self _ _)
      have hd' : k.dist = some d := hd
      have hdk' : d.key = k.key := hdk
      have hstep : ModelsPy.rrevGo ck2 acc ((k, vs) :: rest)
          = ModelsPy.rrevGo ck2
              ((vs.foldl (fun a v => ModelsPy.addEdgeFwd a v k) acc) ++ [(d, [])]) rest := by
        rw [ModelsPy.rrevGo, if_neg hc]
        rw [show ((k, vs) : ModelsPy.ReqPackage × List ModelsPy.DistPackage).1.dist
            = k.dist from rfl] at *
        rw [hd']
      obtain ⟨m2, heq, hkeys, hpairs⟩ :=
        ih hgoodrest ((vs.foldl (fun a v => ModelsPy.addEdgeFwd a v k) acc) ++ [(d, [])])
      refine ⟨m2, by rw [hstep]; exact heq, ?_, ?_⟩
      · intro s
        rw [hkeys s, keyStrings_append]
        rw [show ModelsPy.keyStrings [(d, [])] = [d.key] from rfl]
        rw [List.mem_append, List.mem_singleton, edgeFoldFwd_keys, hdk']
        constructor
        · rintro (((h | h) | h) | h | h)
          · exact Or.inl h
          · rcases h with ⟨v, hv, hk⟩
            exact Or.inr (Or.inl ⟨(k, vs), List.mem_cons_self _ _, v, hv, hk⟩)
          · exact Or.inr (Or.inr ⟨(k, vs), List.mem_cons_self _ _, h.symm, hcf⟩)
          · rcases h with ⟨e, he, hv⟩
            exact Or.inr (Or.inl ⟨e, List.mem_cons_of_mem _ he, hv⟩)
          · rcases h with ⟨e, he, hv⟩
            exact Or.inr (Or.inr ⟨e, List.mem_cons_of_mem _ he, hv⟩)
        · rintro (h | h | h)
          · exact Or.inl (Or.inl (Or.inl h))
          · rcases h with ⟨e, he, v, hv, hk⟩
            rcases List.mem_cons.mp he with rfl | he
            · exact Or.inl (Or.inl (Or.inr ⟨v, hv, hk⟩))
            · exact Or.inr (Or.inl ⟨e, he, v, hv, hk⟩)
          · rcases h with ⟨e, he, hv⟩
            rcases List.mem_cons.mp he with rfl | he
            · exact Or.inl (Or.inr hv.1.symm)
            · exact Or.inr (Or.inr ⟨e, he, hv⟩)
      · intro p
        rw [hpairs p, edgePairs_append]
        rw [show ModelsPy.edgePairs [(d, [])] = [] from rfl]
        rw [List.append_nil, edgeFoldFwd_pairs]
        constructor
        · rintro ((h | h) | h)
          · exact Or.inl h
          · rcases h with ⟨v, hv, hk⟩
            exact Or.inr ⟨(k, vs), List.mem_cons_self _ _, v, hv, hk⟩
          · rcases h with ⟨e, he, hv⟩
            exact Or.inr ⟨e, List.mem_cons_of_mem _ he, hv⟩
        · rintro (h | h)
          · exact Or.inl (Or.inl h)
          · rcases h with ⟨e, he, v, hv, hk⟩
            rcases List.mem_cons.mp he with rfl | he
            · exact Or.inl (Or.inr ⟨v, hv, hk⟩)
            · exact Or.inr ⟨e, he, v, hv, hk⟩

theorem from_pkgs_keyStrings (pkgs : List (String × List String)) :
    ModelsPy.keyStrings (ModelsPy.PackageDAG.from_pkgs pkgs) = pkgs.map Prod.fst := by
  unfold ModelsPy.PackageDAG.from_pkgs ModelsPy.keyStrings
  rw [List.map_map]
  apply List.map_congr_left
  intro q _
  rfl

theorem mem_from_pkgs (pkgs : List (String × List String))
    (e : ModelsPy.DistPackage × List ModelsPy.ReqPackage) :
    e ∈ ModelsPy.PackageDAG.from_pkgs pkgs ↔
      ∃ q ∈ pkgs, e = (ModelsPy.DistPackage.mk q.1 none,
        q.2.map (fun rk => ModelsPy.ReqPackage.mk rk
          ((pkgs.map (fun p => ModelsPy.DistPackage.mk p.1 none)).find?
            (fun dd => dd.key == rk)))) := by
  unfold ModelsPy.PackageDAG.from_pkgs
  rw [List.mem_map]
  constructor
  · rintro ⟨q, hq, hqe⟩
    exact ⟨q, hq, hqe.symm⟩
  · rintro ⟨q, hq, hqe⟩
    exact ⟨q, hq, hqe.symm⟩

theorem mem_childKeyList_from_pkgs (pkgs : List (String × List String)) (s : String) :
    s ∈ ModelsPy.childKeyList (ModelsPy.PackageDAG.from_pkgs pkgs)
      ↔ ∃ q ∈ pkgs, s ∈ q.2 := by
  rw [mem_childKeyList]
  constructor
  · rintro ⟨e, he, v, hv, hk⟩
    rcases (mem_from_pkgs pkgs e).mp he with ⟨q, hq, rfl⟩
    rcases List.mem_map.mp hv with ⟨rk, hrk, rfl⟩
    exact ⟨q, hq, by rw [← hk]; exact hrk⟩
  · rintro ⟨q, hq, hs⟩
    refine ⟨_, (mem_from_pkgs pkgs _).mpr ⟨q, hq, rfl⟩, ?_⟩
    exact ⟨ModelsPy.ReqPackage.mk s
        ((pkgs.map (fun p => ModelsPy.DistPackage.mk p.1 none)).find?
          (fun dd => dd.key == s)),
      List.mem_map.mpr ⟨s, hs, rfl⟩, rfl⟩

theorem from_pkgs_resolves (pkgs : List (String × List String))
    (hres : ∀ q ∈ pkgs, ∀ rk ∈ q.2, rk ∈ pkgs.map Prod.fst) :
    ∀ e ∈ ModelsPy.PackageDAG.from_pkgs pkgs, ∀ v ∈ e.2,
      ∃ dd, v.dist = some dd ∧ dd.key = v.key := by
  intro e he v hv
  rcases (mem_from_pkgs pkgs e).mp he with ⟨q, hq, rfl⟩
  rcases List.mem_map.mp hv with ⟨rk, hrk, rfl⟩
  cases hf : (pkgs.map (fun p => ModelsPy.DistPackage.mk p.1 none)).find?
      (fun dd => dd.key == rk) with
  | none =>
    exfalso
    have hrkk : rk ∈ pkgs.map Prod.fst := hres q hq rk hrk
    rcases List.mem_map.mp hrkk with ⟨q2, hq2, hq2k⟩
    have hmem : ModelsPy.DistPackage.mk q2.1 none
        ∈ pkgs.map (fun p => ModelsPy.DistPackage.mk p.1 none) :=
      List.mem_map.mpr ⟨q2, hq2, rfl⟩
    have hno := List.find?_eq_none.mp hf _ hmem
    apply hno
    rw [show (ModelsPy.DistPackage.mk q2.1 none).key = q2.1 from rfl, hq2k]
    exact beq_self_eq_true rk
  | some dd =>
    refine ⟨dd, rfl, ?_⟩
    have hp := List.find?_some hf
    simpa using hp

/-- C1 counterexample: building the graph from a single record `a` requiring
the uninstalled `b` and reversing it twice fails — the pseudo-entry for the
unresolved requirement `b` supplies a `None` distribution as a dictionary
key, on which the reconstructed graph's index can no longer be built.  In
particular no structurally equivalent graph is produced. -/
theorem c1_counterexample :
    ModelsPy.ReversedPackageDAG.reverse
        (ModelsPy.PackageDAG.reverse (ModelsPy.PackageDAG.from_pkgs [("a", ["b"])]))
      = none := by
  rfl

/-- C1 (amended): for every built graph in which every requirement resolves
to an installed distribution, reversing twice succeeds and yields a graph
with the same set of node keys and the same set of (parent key, child key)
edges — i.e. structurally equivalent to the original; when some requirement
is unresolved the double reversal fails instead (see the counterexample). -/
theorem c1_reverse_involutive (pkgs : List (String × List String))
    (hres : ∀ q ∈ pkgs, ∀ rk ∈ q.2, rk ∈ pkgs.map Prod.fst) :
    ∃ g2, ModelsPy.ReversedPackageDAG.reverse
        (ModelsPy.PackageDAG.reverse (ModelsPy.PackageDAG.from_pkgs pkgs)) = some g2 ∧
      ModelsPy.sameStructure g2 (ModelsPy.PackageDAG.from_pkgs pkgs) := by
  have hgood : ∀ e ∈ ModelsPy.PackageDAG.reverse (ModelsPy.PackageDAG.from_pkgs pkgs),
      ∃ d, e.1.dist = some d ∧ d.key = e.1.key := by
    intro e he
    have hq : e.1 ∈ (ModelsPy.PackageDAG.reverse
        (ModelsPy.PackageDAG.from_pkgs pkgs)).map Prod.fst :=
      List.mem_map.mpr ⟨e, he, rfl⟩
    rcases reverse_keyObjs (ModelsPy.PackageDAG.from_pkgs pkgs) e.1 hq with
      ⟨e', he', hv⟩ | ⟨e', he', hv⟩
    · exact from_pkgs_resolves pkgs hres e' he' e.1 hv
    · refine ⟨e'.1, ?_, ?_⟩
      · rw [hv]
        exact as_requirement_dist e'.1
      · rw [hv]
        exact (as_requirement_key e'.1).symm
  obtain ⟨m2, heq, hkeys, hpairs⟩ :=
    rrevGo_ok
      (ModelsPy.revChildKeyList
        (ModelsPy.PackageDAG.reverse (ModelsPy.PackageDAG.from_pkgs pkgs)))
      (ModelsPy.PackageDAG.reverse (ModelsPy.PackageDAG.from_pkgs pkgs)) hgood []
  have hP : ∀ s, s ∈ ModelsPy.revChildKeyList
      (ModelsPy.PackageDAG.reverse (ModelsPy.PackageDAG.from_pkgs pkgs))
      ↔ ∃ c, (s, c) ∈ ModelsPy.edgePairs (ModelsPy.PackageDAG.from_pkgs pkgs) := by
    intro s
    rw [mem_revChildKeyList]
    constructor
    · rintro ⟨e, he, v, hv, hk⟩
      refine ⟨e.1.key, ?_⟩
      have hrp : (e.1.key, s) ∈ ModelsPy.revEdgePairs
          (ModelsPy.PackageDAG.reverse (ModelsPy.PackageDAG.from_pkgs pkgs)) :=
        (mem_revEdgePairs _ _).mpr ⟨e, he, rfl, v, hv, hk⟩
      exact (reverse_pairs _ _).mp hrp
    · rintro ⟨c, hc⟩
      have hrp : (c, s) ∈ ModelsPy.revEdgePairs
          (ModelsPy.PackageDAG.reverse (ModelsPy.PackageDAG.from_pkgs pkgs)) :=
        (reverse_pairs _ (c, s)).mpr hc
      rcases (mem_revEdgePairs _ _).mp hrp with ⟨e, he, h1, v, hv, h2⟩
      exact ⟨e, he, v, hv, h2⟩
  refine ⟨m2, heq, ?_, ?_⟩
  · intro s
    rw [hkeys s]
    rw [show ModelsPy.keyStrings ([] : ModelsPy.PackageDAG) = [] from rfl]
    simp only [List.not_mem_nil, false_or]
    constructor
    · rintro (h | h)
      · have hPar := (hP s).mp ((mem_revChildKeyList _ s).mpr h)
        rcases hPar with ⟨c, hc⟩
        rcases (mem_edgePairs _ _).mp hc with ⟨e, he, h1, _, _, _⟩
        exact (mem_keyStrings _ s).mpr ⟨e, he, h1⟩
      · rcases h with ⟨e, he, hk, hcf⟩
        have hrk : s ∈ ModelsPy.revKeyStrings
            (ModelsPy.PackageDAG.reverse (ModelsPy.PackageDAG.from_pkgs pkgs)) :=
          (mem_revKeyStrings _ s).mpr ⟨e, he, hk⟩
        rcases (reverse_keys _ s).mp hrk with h | ⟨h, _⟩
        · rcases (mem_childKeyList_from_pkgs pkgs s).mp h with ⟨q, hq, hs⟩
          have : s ∈ pkgs.map Prod.fst := hres q hq s hs
          rw [from_pkgs_keyStrings]
          exact this
        · exact h
    · intro hs
      by_cases hPm : s ∈ ModelsPy.revChildKeyList
          (ModelsPy.PackageDAG.reverse (ModelsPy.PackageDAG.from_pkgs pkgs))
      · exact Or.inl ((mem_revChildKeyList _ s).mp hPm)
      · right
        have hrk : s ∈ ModelsPy.revKeyStrings
            (ModelsPy.PackageDAG.reverse (ModelsPy.PackageDAG.from_pkgs pkgs)) := by
          rw [reverse_keys]
          by_cases hck : s ∈ ModelsPy.childKeyList (ModelsPy.PackageDAG.from_pkgs pkgs)
          · exact Or.inl hck
          · exact Or.inr ⟨hs, hck⟩
        rcases (mem_revKeyStrings _ s).mp hrk with ⟨e, he, hk⟩
        refine ⟨e, he, hk, ?_⟩
        rw [hk]
        exact (contains_false_iff _ _).mpr hPm
  · intro p
    rw [hpairs p]
    rw [show ModelsPy.edgePairs ([] : ModelsPy.PackageDAG) = [] from rfl]
    simp only [List.not_mem_nil, false_or]
    constructor
    · rintro ⟨e, he, v, hv, hp⟩
      have hrp : (p.2, p.1) ∈ ModelsPy.revEdgePairs
          (ModelsPy.PackageDAG.reverse (ModelsPy.PackageDAG.from_pkgs pkgs)) :=
        (mem_revEdgePairs _ _).mpr
          ⟨e, he, (congrArg Prod.snd hp).symm, v, hv, (congrArg Prod.fst hp).symm⟩
      exact (reverse_pairs _ _).mp hrp
    · intro hpm
      have hrp : (p.2, p.1) ∈ ModelsPy.revEdgePairs
          (ModelsPy.PackageDAG.reverse (ModelsPy.PackageDAG.from_pkgs pkgs)) :=
        (reverse_pairs _ (p.2, p.1)).mpr hpm
      rcases (mem_revEdgePairs _ _).mp hrp with ⟨e, he, h1, v, hv, h2⟩
      refine ⟨e, he, v, hv, ?_⟩
      rw [h2, h1]

/-- Witness for the amended C1 theorem: a fully resolved two-node graph. -/
theorem c1_reverse_involutive_witness :
    (∀ q ∈ [("a", ["b"]), ("b", ([] : List String))], ∀ rk ∈ q.2,
        rk ∈ [("a", ["b"]), ("b", ([] : List String))].map Prod.fst) ∧
    ∃ g2, ModelsPy.ReversedPackageDAG.reverse
        (ModelsPy.PackageDAG.reverse
          (ModelsPy.PackageDAG.from_pkgs [("a", ["b"]), ("b", [])])) = some g2 ∧
      ModelsPy.sameStructure g2
        (ModelsPy.PackageDAG.from_pkgs [("a", ["b"]), ("b", [])]) :=
  ⟨by decide, c1_reverse_involutive [("a", ["b"]), ("b", [])] (by decide)⟩
